import Mathlib

/-!
# deep-dive-golang: health checker and worker pool

A shallow embedding of the two Go programs of the repository:

* `go-web-health-checker/main.go`: the probe `getHealthInfo`, the handler
  `healthCheckHandler` (one goroutine per URL, one buffered channel) and the
  JSON field naming of `HealthCheckResult`;
* `go-routines-and-channels/goroutines_channels_demo.go`: `main` and
  `Worker.processTasks` (a producer/collector and a pool of workers over two
  buffered channels).

Goroutines are modelled as sequential processes with a program counter; a
schedule is a list of goroutine identifiers, and a step of a goroutine is
`none` when the goroutine is blocked on a channel or has returned.
-/

namespace HealthChecker

/-! ## Data model (main.go, lines 10-13) -/

/-- The Go struct `HealthCheckResult`. -/
structure HealthCheckResult where
  URL : String
  Status : String
deriving DecidableEq

/-- What `client.Get(url)` returns: a non-nil error (timeout, refused
connection, DNS failure, ...) or a response with its status code. -/
inductive GetOutcome where
  | err (e : String)
  | resp (StatusCode : Int)
deriving DecidableEq

/-- The constant `http.StatusOK`. -/
def StatusOK : Int := 200

/-- The 2xx class of HTTP status codes. -/
def is2xx (code : Int) : Bool := decide (200 ≤ code) && decide (code < 300)

/-- The observable effect of one call of `getHealthInfo`: the values sent on
`ch`, in order, and the returned error (`none` is `nil`). -/
structure ProbeRun where
  sent : List HealthCheckResult
  ret : Option String
deriving DecidableEq

/-- The function `getHealthInfo(url, ch)` of main.go, lines 15-33; `get` stands for
`client.Get` with the 3 second timeout. -/
def getHealthInfo (get : String → GetOutcome) (url : String) : ProbeRun :=
  let status := "Down"
  match get url with
  | .err e =>
    -- if err != nil: send and return err
    { sent := [{ URL := url, Status := status }], ret := some e }
  | .resp StatusCode =>
    let status := if StatusCode = StatusOK then "UP" else status
    { sent := [{ URL := url, Status := status }], ret := none }

/-! ## JSON field names (encoding/json over the struct tags of lines 11-12) -/

/-- One field of a Go struct type: its name and its raw tag. -/
structure StructField where
  Name : String
  Tag : String
deriving DecidableEq

/-- The fields of `HealthCheckResult` with the tags written in main.go: there is a
blank between the colon and the quoted value. -/
def HealthCheckResult_fields : List StructField :=
  [ { Name := "URL", Tag := "json: \"url\"" },
    { Name := "Status", Tag := "json: \"status\"" } ]

def chQuote : Char := Char.ofNat 34
def chBackslash : Char := Char.ofNat 92
def chSpace : Char := Char.ofNat 32
def chColon : Char := Char.ofNat 58
def chDel : Char := Char.ofNat 127

/-- A byte that may occur in a tag key (`reflect.StructTag.Lookup`): above the
blank, and neither a colon, a quote nor DEL. -/
def isKeyChar (c : Char) : Bool :=
  decide (chSpace.toNat < c.toNat) && c != chColon && c != chQuote && c != chDel

/-- Scans a quoted tag value after its opening quote: the raw characters up to the
closing quote and what follows it; `none` when the quote is not closed. A backslash
protects the next character. -/
def scanQuoted : List Char → Option (List Char × List Char)
  | [] => none
  | c :: rest =>
    if c = chQuote then some ([], rest)
    else if c = chBackslash then
      match rest with
      | [] => none
      | d :: rest2 => (scanQuoted rest2).map (fun p => (c :: d :: p.1, p.2))
    else (scanQuoted rest).map (fun p => (c :: p.1, p.2))

/-- The value of a quoted tag string (`strconv.Unquote`) for values without escape
sequences; a value with a backslash is not interpreted here. -/
def unquote (raw : List Char) : Option String :=
  if raw.contains chBackslash then none else some (String.mk raw)

/-- The loop of `reflect.StructTag.Lookup`: the conventional tag format is a blank
separated list of `key:"value"` pairs, and the scan stops at the first
malformed pair. `fuel` bounds the number of pairs. -/
def lookupLoop (key : List Char) : Nat → List Char → Option String
  | 0, _ => none
  | fuel + 1, tag =>
    let tag := tag.dropWhile (fun c => c == chSpace)
    if tag.isEmpty then none
    else
      let name := tag.takeWhile isKeyChar
      match tag.dropWhile isKeyChar with
      | c1 :: c2 :: rest =>
        if name.isEmpty || c1 != chColon || c2 != chQuote then none
        else
          match scanQuoted rest with
          | none => none
          | some (raw, tag2) =>
            if key = name then unquote raw else lookupLoop key fuel tag2
      | _ => none

/-- The call `tag.Get(key)`: the value of the key, or the empty string. -/
def StructTag.Get (tag : String) (key : String) : String :=
  (lookupLoop key.toList (tag.length + 1) tag.toList).getD ""

/-- The characters encoding/json accepts in a key name besides letters and digits. -/
def tagPunct : List Char := "!#$%&()*+-./:;<=>?@[]^_\x7b|\x7d~ ".toList

/-- The check `isValidTag` of encoding/json (ASCII letters and digits). -/
def isValidTag (s : String) : Bool :=
  !s.isEmpty && s.toList.all (fun c => tagPunct.contains c || c.isAlphanum)

/-- The key under which encoding/json writes a field: `none` when the field is
skipped (tag `-`), the tag name when there is a valid one, otherwise the Go name of
the field. -/
def jsonKey (f : StructField) : Option String :=
  let tag := StructTag.Get f.Tag "json"
  if tag = "-" then none
  else
    let name := String.mk (tag.toList.takeWhile (fun c => c != ','))
    if isValidTag name then some name else some f.Name

/-- The members of the JSON object written for one result: pairs of key and string
value, in field order. -/
def encodeObject (r : HealthCheckResult) : List (String × String) :=
  (HealthCheckResult_fields.zip [r.URL, r.Status]).filterMap
    (fun p => (jsonKey p.1).map (fun k => (k, p.2)))

/-- The members of the JSON array written by `json.NewEncoder(w).Encode(results)`. -/
def encodeResults (results : List HealthCheckResult) : List (List (String × String)) :=
  results.map encodeObject

/-! ## The handler (main.go, lines 35-53) -/

/-- What has been written to the body of the response. -/
inductive Body where
  | empty
  | text (s : String)
  | json (array : List (List (String × String)))
deriving DecidableEq

/-- The part of an `http.ResponseWriter` the handler touches: the `Content-Type`
header, the status line (`none` while nothing has been written) and the body. -/
structure ResponseWriter where
  contentType : String
  status : Option Nat
  body : Body
deriving DecidableEq

/-- The writer the server hands to the handler. -/
def ResponseWriter.fresh : ResponseWriter :=
  { contentType := "", status := none, body := Body.empty }

/-- The constant `http.StatusBadRequest`. -/
def StatusBadRequest : Nat := 400

/-- The call `http.Error(w, error, code)`: a plain-text content type, the status
code, and the message followed by a newline. -/
def httpError (_w : ResponseWriter) (error : String) (code : Nat) : ResponseWriter :=
  { contentType := "text/plain; charset=utf-8", status := some code,
    body := Body.text (error ++ "\n") }

/-- Lines 51-52: the content type is set and the results are encoded; the first
write sends status 200 unless a status was written before. -/
def writeResults (w : ResponseWriter) (results : List HealthCheckResult) : ResponseWriter :=
  { contentType := "application/json", status := some (w.status.getD 200),
    body := Body.json (encodeResults results) }

/-- Where the handler goroutine stands: in the loop of line 43 with `i` probes
launched, in the loop of line 48 with `j` values received, or returned. -/
inductive HandlerPC where
  | launching (i : Nat)
  | collecting (j : Nat)
  | returned
deriving DecidableEq

/-- Where a probe goroutine stands: before `client.Get`, with the sends it still
has to perform on `ch`, or returned. -/
inductive ProbePC where
  | calling (url : String)
  | sending (pending : List HealthCheckResult) (ret : Option String)
  | returned (ret : Option String)
deriving DecidableEq

/-- The state of one request: the decoded `urls`, the handler goroutine, the buffer
of `ch` (its capacity is `len(urls)`), the probe goroutines in launch order, the
slice `results` and the response. -/
structure HandlerState where
  urls : List String
  pc : HandlerPC
  ch : List HealthCheckResult
  probes : List ProbePC
  results : List HealthCheckResult
  w : ResponseWriter
deriving DecidableEq

/-- The handler up to line 42: `decoded` is the outcome of
`json.NewDecoder(r.Body).Decode(&urls)`. A decoding error is answered with
`http.Error` and the handler returns; otherwise `ch` is made with capacity
`len(urls)`. -/
def healthCheckHandler (decoded : Except String (List String)) : HandlerState :=
  match decoded with
  | .error _ =>
    { urls := [], pc := .returned, ch := [], probes := [], results := [],
      w := httpError ResponseWriter.fresh "Invalid request" StatusBadRequest }
  | .ok urls =>
    { urls := urls, pc := .launching 0, ch := [], probes := [], results := [],
      w := ResponseWriter.fresh }

/-- A goroutine of one request. -/
inductive RequestGid where
  | handler
  | probe (i : Nat)
deriving DecidableEq

/-- One step of the handler goroutine (lines 43-52); `none` when it is blocked on
the receive of line 49 or has returned. -/
def handlerStep (s : HandlerState) : Option HandlerState :=
  match s.pc with
  | .launching i =>
    match s.urls[i]? with
    | some url => some { s with probes := s.probes ++ [.calling url], pc := .launching (i + 1) }
    | none => some { s with results := [], pc := .collecting 0 }
  | .collecting j =>
    if j < s.urls.length then
      match s.ch with
      | r :: rest =>
        some { s with ch := rest, results := s.results ++ [r], pc := .collecting (j + 1) }
      | [] => none
    else some { s with w := writeResults s.w s.results, pc := .returned }
  | .returned => none

/-- One step of probe goroutine `i` running `getHealthInfo(url, ch)`; `get i` is what
`client.Get` answers to that probe. A send is blocked while the buffer of `ch` holds
`len(urls)` values. -/
def probeStep (get : Nat → String → GetOutcome) (s : HandlerState) (i : Nat) :
    Option HandlerState :=
  match s.probes[i]? with
  | none => none
  | some (.calling url) =>
    let r := getHealthInfo (get i) url
    some { s with probes := s.probes.set i (.sending r.sent r.ret) }
  | some (.sending (r :: rest) ret) =>
    if s.ch.length < s.urls.length then
      some { s with ch := s.ch ++ [r], probes := s.probes.set i (.sending rest ret) }
    else none
  | some (.sending [] ret) => some { s with probes := s.probes.set i (.returned ret) }
  | some (.returned _) => none

/-- One step of the goroutine the scheduler picks. -/
def requestStep (get : Nat → String → GetOutcome) (s : HandlerState) : RequestGid → Option HandlerState
  | .handler => handlerStep s
  | .probe i => probeStep get s i

/-- Runs a schedule; `none` when it picks a goroutine that cannot move. -/
def requestRun (get : Nat → String → GetOutcome) (s : HandlerState) : List RequestGid → Option HandlerState
  | [] => some s
  | g :: rest => (requestStep get s g).bind (fun s1 => requestRun get s1 rest)

/-- The URLs a probe has still to report. -/
def pendingURLs : ProbePC → Multiset String
  | .calling url => {url}
  | .sending pending _ => ↑(pending.map HealthCheckResult.URL)
  | .returned _ => 0

/-- Whether a probe has performed its send on `ch`. -/
def hasSent : ProbePC → Bool
  | .calling _ => false
  | .sending [] _ => true
  | .sending (_ :: _) _ => false
  | .returned _ => true

/-- The number of steps a probe has left. -/
def probePotential : ProbePC → Nat
  | .calling _ => 3
  | .sending pending _ => pending.length + 1
  | .returned _ => 0

/-- A bound on the number of steps left in a state. -/
def requestPotential (s : HandlerState) : Nat :=
  (s.probes.map probePotential).sum +
    match s.pc with
    | .launching i => 4 * (s.urls.length - i) + s.urls.length + 2
    | .collecting j => (s.urls.length - j) + 1
    | .returned => 0

/-- The request of the spec scenario: two targets. -/
def scenarioURLs : List String := ["http://up.example", "http://down.example"]

/-- The network of the scenario: the first probe gets HTTP 200, the second times out. -/
def scenarioGet : Nat → String → GetOutcome :=
  fun i _ => if i = 0 then .resp 200 else .err "timeout"

/-- A schedule of the scenario in which the second probe reports first. -/
def scenarioSchedule : List RequestGid :=
  [.handler, .handler, .probe 1, .probe 1, .handler, .probe 0, .probe 0, .probe 1,
   .handler, .probe 0, .handler, .handler]

/-- A schedule of the scenario that stops when the second probe has sent, the first
probe stands at its send and the handler has not started to receive. -/
def scenarioOneSent : List RequestGid :=
  [.handler, .handler, .probe 1, .probe 1, .probe 0]

/-- The invariant of a request with the decoded list `urls`. -/
structure RequestInv (urls : List String) (s : HandlerState) : Prop where
  urls_eq : s.urls = urls
  conserve : (↑(urls.take s.probes.length) : Multiset String) =
    (s.probes.map pendingURLs).sum + ↑(s.ch.map HealthCheckResult.URL)
      + ↑(s.results.map HealthCheckResult.URL)
  launched : s.probes.length ≤ urls.length
  one_send : ∀ p ∈ s.probes, Multiset.card (pendingURLs p) + (if hasSent p then 1 else 0) = 1
  at_pc : match s.pc with
    | .launching i => s.probes.length = i ∧ s.results = [] ∧ s.w = ResponseWriter.fresh
    | .collecting j => s.probes.length = urls.length ∧ s.results.length = j ∧
        s.w = ResponseWriter.fresh
    | .returned => s.probes.length = urls.length ∧ s.results.length = urls.length ∧
        s.w = writeResults ResponseWriter.fresh s.results

end HealthChecker

namespace WorkerPool

/-! ## Data model (goroutines_channels_demo.go, lines 8-17) -/

/-- The Go struct `Worker`. -/
structure Worker where
  id : Nat
deriving DecidableEq

/-- The Go struct `Task`. -/
structure Task where
  id : Int
  processed : Bool
deriving DecidableEq

/-- What `main` fixes before it starts: the capacities of `taskChannel` and
`resultChannel`, `numWorkers` and the slice `tasks`. -/
structure Config where
  taskCap : Nat
  resultCap : Nat
  numWorkers : Nat
  tasks : List Task
deriving DecidableEq

/-- The values written in `main` (lines 22, 25, 28 and 38-44). -/
def mainConfig : Config :=
  { taskCap := 5, resultCap := 5, numWorkers := 3,
    tasks := [⟨1, false⟩, ⟨2, false⟩, ⟨3, false⟩, ⟨4, false⟩, ⟨5, false⟩] }

/-- The coordination of `main` with its two capacities of 5, for any number of
workers and any tasks. -/
def poolConfig (numWorkers : Nat) (tasks : List Task) : Config :=
  { taskCap := 5, resultCap := 5, numWorkers := numWorkers, tasks := tasks }

/-- Where `main` stands: in the loop of line 31 with loop variable `i`, in the loop
of line 48 with `k` tasks sent, in the loop of line 60 with `i` results received, or
after it. -/
inductive MainPC where
  | starting (i : Nat)
  | sending (k : Nat)
  | collecting (i : Nat)
  | done
deriving DecidableEq

/-- Where a worker stands in `processTasks`: at the receive of the range loop
(line 74), between the receive and line 81 with its task, at the send of line 85 with
the task marked, or returned (line 88). -/
inductive WorkerPC where
  | receiving
  | processing (task : Task)
  | sending (task : Task)
  | done
deriving DecidableEq

/-- A worker goroutine: the receiver `w` and where it stands. -/
structure WorkerProc where
  w : Worker
  pc : WorkerPC
deriving DecidableEq

/-- The state of the program: `main`, the buffers of the two channels, whether
`taskChannel` is closed, the worker goroutines in launch order, and the results
`main` has received at line 61, in order. -/
structure State where
  pc : MainPC
  taskChannel : List Task
  closed : Bool
  resultChannel : List Task
  workers : List WorkerProc
  results : List Task
deriving DecidableEq

/-- The state at line 31: both channels made and empty, no goroutine launched. -/
def main (_cfg : Config) : State :=
  { pc := .starting 1, taskChannel := [], closed := false, resultChannel := [],
    workers := [], results := [] }

/-- A goroutine of the program. -/
inductive PoolGid where
  | main
  | worker (n : Nat)
deriving DecidableEq

/-- One step of `main` (lines 31-63); `none` when it is blocked on the send of line 50
or on the receive of line 61, or has finished. A send into a buffer with room
completes; with an unbuffered channel the value is handed over in the step of the
receiving worker. -/
def mainStep (cfg : Config) (s : State) : Option State :=
  match s.pc with
  | .starting i =>
    if i ≤ cfg.numWorkers then
      some { s with workers := s.workers ++ [{ w := { id := i }, pc := .receiving }],
                    pc := .starting (i + 1) }
    else some { s with pc := .sending 0 }
  | .sending k =>
    match cfg.tasks[k]? with
    | some task =>
      if s.taskChannel.length < cfg.taskCap then
        some { s with taskChannel := s.taskChannel ++ [task], pc := .sending (k + 1) }
      else none
    | none => some { s with closed := true, pc := .collecting 0 }
  | .collecting i =>
    if i < cfg.tasks.length then
      match s.resultChannel with
      | result :: rest =>
        some { s with resultChannel := rest, results := s.results ++ [result],
                      pc := .collecting (i + 1) }
      | [] => none
    else some { s with pc := .done }
  | .done => none

/-- One step of worker goroutine `n` running `processTasks` (lines 70-89); `none`
when it is blocked on a channel or has returned. The receive takes the head of the
buffer, sees the closed and drained channel, or, on an unbuffered channel, takes
the task `main` is waiting to send. The send appends to the buffer when there is
room or, on an unbuffered channel, hands the task to `main` waiting at line 61. -/
def processTasks (cfg : Config) (s : State) (n : Nat) : Option State :=
  match s.workers[n]? with
  | none => none
  | some g =>
    match g.pc with
    | .receiving =>
      match s.taskChannel with
      | task :: rest =>
        some { s with taskChannel := rest,
                      workers := s.workers.set n { g with pc := .processing task } }
      | [] =>
        if s.closed then some { s with workers := s.workers.set n { g with pc := .done } }
        else
          match s.pc with
          | .sending k =>
            match cfg.tasks[k]? with
            | some task =>
              if cfg.taskCap = 0 then
                some { s with pc := .sending (k + 1),
                              workers := s.workers.set n { g with pc := .processing task } }
              else none
            | none => none
          | _ => none
    | .processing task =>
      some { s with workers :=
        s.workers.set n { g with pc := .sending { task with processed := true } } }
    | .sending task =>
      if s.resultChannel.length < cfg.resultCap then
        some { s with resultChannel := s.resultChannel ++ [task],
                      workers := s.workers.set n { g with pc := .receiving } }
      else
        match s.pc with
        | .collecting i =>
          if cfg.resultCap = 0 ∧ i < cfg.tasks.length then
            some { s with results := s.results ++ [task], pc := .collecting (i + 1),
                          workers := s.workers.set n { g with pc := .receiving } }
          else none
        | _ => none
    | .done => none

/-- One step of the goroutine the scheduler picks, for the goroutines taken on their
own. The sleeps of lines 52 and 78 and the log lines are not part of the state, so
every order of the steps is a schedule. Workers can still be scheduled here after
`main` has finished; the end of the process at the return of `main` is added by
`programStep`, whose runs are runs of `poolStep`. -/
def poolStep (cfg : Config) (s : State) : PoolGid → Option State
  | .main => mainStep cfg s
  | .worker n => processTasks cfg s n

/-- Runs a schedule; `none` when it picks a goroutine that cannot move. -/
def poolRun (cfg : Config) (s : State) : List PoolGid → Option State
  | [] => some s
  | g :: rest => (poolStep cfg s g).bind (fun s1 => poolRun cfg s1 rest)

/-- One step of the process: `main` returns at line 66 without waiting for the
workers (there is no join), and the Go process ends there, so once `main` has
finished no goroutine moves any more, whatever the workers were about to do. -/
def programStep (cfg : Config) (s : State) (g : PoolGid) : Option State :=
  match s.pc with
  | .done => none
  | _ => poolStep cfg s g

/-- Runs a schedule of the process; `none` when it picks a goroutine that cannot move
or when the process has ended. -/
def programRun (cfg : Config) (s : State) : List PoolGid → Option State
  | [] => some s
  | g :: rest => (programStep cfg s g).bind (fun s1 => programRun cfg s1 rest)

/-- The id of the task a worker holds. -/
def heldIds : WorkerPC → Multiset Int
  | .processing task => {task.id}
  | .sending task => {task.id}
  | _ => 0

/-- The number of tasks `main` has sent when it stands at `pc`. -/
def sentCount (cfg : Config) (pc : MainPC) : Nat :=
  match pc with
  | .starting _ => 0
  | .sending k => k
  | .collecting _ => cfg.tasks.length
  | .done => cfg.tasks.length

/-- The number of steps a worker has left with the task it holds, and to return. -/
def workerPotential : WorkerPC → Nat
  | .receiving => 1
  | .processing _ => 4
  | .sending _ => 3
  | .done => 0

/-- A bound on the number of steps left in a state. -/
def poolPotential (cfg : Config) (s : State) : Nat :=
  (s.workers.map (fun g => workerPotential g.pc)).sum + 4 * s.taskChannel.length
    + s.resultChannel.length +
    match s.pc with
    | .starting i => 2 * (cfg.numWorkers + 1 - i) + 3 + 5 * cfg.tasks.length
    | .sending k => 2 + 5 * (cfg.tasks.length - k)
    | .collecting _ => 1
    | .done => 0

/-- The tasks with ids 1 to `n`, not processed. -/
def numbered (n : Nat) : List Task :=
  (List.range n).map (fun i => { id := (i : Int) + 1, processed := false })

/-- The pool of the spec scenario: three workers, the tasks 1, 2 and 3. -/
def poolScenarioConfig : Config := poolConfig 3 (numbered 3)

/-- A schedule of the scenario: the third worker takes task 1 and delivers last. -/
def poolScenarioSchedule : List PoolGid :=
  [.main, .main, .main, .main, .main, .main, .main,
   .worker 2, .worker 0, .worker 1, .main,
   .worker 0, .worker 0, .worker 1, .worker 1, .worker 2, .worker 2,
   .main, .main, .main, .main, .worker 0, .worker 1, .worker 2]

/-- The coordination of `main` with its three workers and fourteen tasks. -/
def overloadConfig : Config := poolConfig 3 (numbered 14)

/-- A schedule of fourteen tasks: the first worker processes five tasks, which fill
`resultChannel`; each worker then takes one more task; `main` fills `taskChannel`. -/
def overloadSchedule : List PoolGid :=
  [.main, .main, .main, .main,
   .main, .worker 0, .worker 0, .worker 0,
   .main, .worker 0, .worker 0, .worker 0,
   .main, .worker 0, .worker 0, .worker 0,
   .main, .worker 0, .worker 0, .worker 0,
   .main, .worker 0, .worker 0, .worker 0,
   .main, .worker 0, .worker 0,
   .main, .worker 1, .worker 1,
   .main, .worker 2, .worker 2,
   .main, .main, .main, .main, .main]

/-- A schedule of the program as written (three workers, five tasks): the workers
share the tasks, the last two results are sent after `taskChannel` is closed, and
`main` receives its five results and returns while every worker stands at its
receive. -/
def earlyReturnSchedule : List PoolGid :=
  [.main, .main, .main, .main,
   .main, .worker 0, .main, .worker 1, .main, .worker 2,
   .worker 0, .worker 0, .main, .worker 0,
   .worker 1, .worker 1, .main, .worker 1,
   .worker 2, .worker 2, .main,
   .worker 0, .worker 0, .worker 1, .worker 1,
   .main, .main, .main, .main, .main, .main]

/-- A schedule of the program as written in which every worker sees the closed
channel and returns before `main` has received its last result. -/
def workersReturnSchedule : List PoolGid :=
  [.main, .main, .main, .main,
   .main, .worker 0, .main, .worker 1, .main, .worker 2,
   .worker 0, .worker 0, .main, .worker 0,
   .worker 1, .worker 1, .main, .worker 1,
   .worker 2, .worker 2, .main, .worker 2,
   .worker 0, .worker 0, .worker 0, .worker 1, .worker 1, .worker 1,
   .main, .main, .main, .main, .main, .main]

/-- No goroutine can move. -/
def Stuck (cfg : Config) (s : State) : Prop := ∀ g, poolStep cfg s g = none

/-- The run is over: `main` has finished and every worker has returned. -/
def Finished (s : State) : Prop := s.pc = .done ∧ ∀ g ∈ s.workers, g.pc = .done

/-- The deadlock of the producer: `main` waits to send task number
`taskCap + resultCap + numWorkers + 1`, `taskChannel` is full, every worker waits to
send to the full `resultChannel`, and nothing has been collected. -/
def ProducerDeadlock (cfg : Config) (s : State) : Prop :=
  s.pc = .sending (cfg.taskCap + cfg.resultCap + cfg.numWorkers) ∧
  cfg.taskCap + cfg.resultCap + cfg.numWorkers < cfg.tasks.length ∧
  s.taskChannel.length = cfg.taskCap ∧
  s.resultChannel.length = cfg.resultCap ∧
  s.workers.length = cfg.numWorkers ∧
  (∀ g ∈ s.workers, ∃ task, g.pc = .sending task) ∧
  s.results = []

/-- From state `s` on, `main` stays at the send of `tasks[k]` whatever the schedule. -/
def BlockedForever (cfg : Config) (s : State) (k : Nat) : Prop :=
  k < cfg.tasks.length ∧ ∀ sched s1, poolRun cfg s sched = some s1 → s1.pc = .sending k

/-- What holds of the number of workers launched, of the closing of `taskChannel`
and of the results received, according to where `main` stands. -/
def AtPc (cfg : Config) (pc : MainPC) (launched : Nat) (closed : Bool)
    (results : List Task) : Prop :=
  match pc with
  | .starting i => 1 ≤ i ∧ i ≤ cfg.numWorkers + 1 ∧ launched + 1 = i ∧
      closed = false ∧ results = []
  | .sending k => k ≤ cfg.tasks.length ∧ launched = cfg.numWorkers ∧
      closed = false ∧ results = []
  | .collecting i => i ≤ cfg.tasks.length ∧ launched = cfg.numWorkers ∧
      closed = true ∧ results.length = i
  | .done => launched = cfg.numWorkers ∧ closed = true ∧ results.length = cfg.tasks.length

/-- The invariant of the pool. -/
structure PoolInv (cfg : Config) (s : State) : Prop where
  task_le : s.taskChannel.length ≤ cfg.taskCap
  result_le : s.resultChannel.length ≤ cfg.resultCap
  conserve : (↑((cfg.tasks.take (sentCount cfg s.pc)).map Task.id) : Multiset Int) =
    ↑(s.taskChannel.map Task.id) + (s.workers.map (fun g => heldIds g.pc)).sum
      + ↑(s.resultChannel.map Task.id) + ↑(s.results.map Task.id)
  processed_chan : ∀ t ∈ s.resultChannel, t.processed = true
  processed_res : ∀ t ∈ s.results, t.processed = true
  processed_held : ∀ g ∈ s.workers, ∀ t, g.pc = .sending t → t.processed = true
  exited : ∀ g ∈ s.workers, g.pc = .done → s.closed = true ∧ s.taskChannel = []
  threshold : s.closed = true →
    cfg.tasks.length ≤ cfg.taskCap + cfg.resultCap + cfg.numWorkers
  at_pc : AtPc cfg s.pc s.workers.length s.closed s.results

end WorkerPool

/-! # Shared list lemmas -/

namespace GoModel

theorem sum_map_set {α M : Type} [AddCommMonoid M] (f : α → M) :
    ∀ (l : List α) (i : Nat) (a x : α), l[i]? = some a →
      ((l.set i x).map f).sum + f a = (l.map f).sum + f x
  | [], i, a, x, h => by simp at h
  | b :: l, 0, a, x, h => by
    simp at h
    subst h
    simp only [List.set, List.map_cons, List.sum_cons]
    abel
  | b :: l, i + 1, a, x, h => by
    simp at h
    have ih := sum_map_set f l i a x h
    simp only [List.set, List.map_cons, List.sum_cons]
    rw [add_assoc, ih, add_assoc]

theorem exists_pos_of_sum_pos {α : Type} (f : α → Nat) :
    ∀ (l : List α), 0 < (l.map f).sum → ∃ (i : Nat) (a : α), l[i]? = some a ∧ 0 < f a
  | [], h => by simp at h
  | b :: l, h => by
    by_cases hb : 0 < f b
    · exact ⟨0, b, by simp, hb⟩
    · have h2 : 0 < (l.map f).sum := by
        simp only [List.map_cons, List.sum_cons] at h
        omega
      obtain ⟨i, a, hi, ha⟩ := exists_pos_of_sum_pos f l h2
      exact ⟨i + 1, a, by simpa using hi, ha⟩

end GoModel

namespace HealthChecker

/-! # The probe -/

theorem getHealthInfo_sent (get : String → GetOutcome) (url : String) :
    ∃ status, (getHealthInfo get url).sent = [{ URL := url, Status := status }] := by
  unfold getHealthInfo
  cases get url <;> simp

theorem getHealthInfo_sent_urls (get : String → GetOutcome) (url : String) :
    (getHealthInfo get url).sent.map HealthCheckResult.URL = [url] := by
  obtain ⟨st, h⟩ := getHealthInfo_sent get url
  simp [h]

theorem getHealthInfo_sent_length (get : String → GetOutcome) (url : String) :
    (getHealthInfo get url).sent.length = 1 := by
  obtain ⟨st, h⟩ := getHealthInfo_sent get url
  simp [h]

/-! # The handler: invariant, termination, progress -/

theorem inv_start (urls : List String) : RequestInv urls (healthCheckHandler (.ok urls)) := by
  constructor <;> simp [healthCheckHandler]

theorem inv_handlerStep {urls : List String} {s s1 : HandlerState} (h : RequestInv urls s)
    (hs : handlerStep s = some s1) : RequestInv urls s1 := by
  obtain ⟨hu, hc, hl, ho, hp⟩ := h
  unfold handlerStep at hs
  cases hpc : s.pc with
  | launching i =>
    simp only [hpc] at hs hp
    cases hi : s.urls[i]? with
    | some url =>
      simp only [hi, Option.some.injEq] at hs
      subst hs
      have hlt : i < urls.length := by
        rw [← hu]; exact (List.getElem?_eq_some_iff.mp hi).1
      constructor
      · exact hu
      · simp only [List.length_append, List.length_singleton, List.map_append, List.map_cons,
          List.map_nil, List.sum_append, List.sum_cons, List.sum_nil, pendingURLs, add_zero]
        rw [hp.1, List.take_succ, ← hu, hi]
        rw [hp.1, ← hu] at hc
        simp only [Option.toList_some, ← Multiset.coe_add, ← Multiset.coe_singleton] at hc ⊢
        rw [hc]
        abel
      · simp; omega
      · intro p hmem
        rcases List.mem_append.mp hmem with h1 | h1
        · exact ho p h1
        · simp only [List.mem_singleton] at h1
          subst h1
          simp [pendingURLs, hasSent]
      · simp [hp]
    | none =>
      simp only [hi, Option.some.injEq] at hs
      subst hs
      have hge : urls.length ≤ i := by
        rw [← hu]; exact List.getElem?_eq_none_iff.mp hi
      constructor
      · exact hu
      · simpa [hp.2.1] using hc
      · exact hl
      · exact ho
      · simp [hp]; omega
  | collecting j =>
    simp only [hpc] at hs hp
    by_cases hj : j < s.urls.length
    · simp only [hj, if_true] at hs
      cases hch : s.ch with
      | nil => simp [hch] at hs
      | cons r rest =>
        simp only [hch, Option.some.injEq] at hs
        subst hs
        constructor
        · exact hu
        · simp only [List.map_append, List.map_cons, List.map_nil]
          rw [hc, hch]
          simp only [List.map_cons, ← Multiset.coe_add, ← Multiset.singleton_add,
            ← Multiset.cons_coe]
          abel
        · exact hl
        · exact ho
        · simp [hp]
    · simp only [hj, if_false, Option.some.injEq] at hs
      subst hs
      rw [hu] at hj
      constructor
      · exact hu
      · exact hc
      · exact hl
      · exact ho
      · simp [hp, ResponseWriter.fresh, writeResults]
        have := hp.2.1
        have hcard := congrArg Multiset.card hc
        simp at hcard
        omega
  | returned => simp [hpc] at hs

theorem inv_probeStep {urls : List String} {get : Nat → String → GetOutcome}
    {s s1 : HandlerState} {i : Nat} (h : RequestInv urls s) (hs : probeStep get s i = some s1) :
    RequestInv urls s1 := by
  obtain ⟨hu, hc, hl, ho, hp⟩ := h
  unfold probeStep at hs
  cases hi : s.probes[i]? with
  | none => simp [hi] at hs
  | some p =>
    have hset := fun x => GoModel.sum_map_set pendingURLs s.probes i p x hi
    cases p with
    | calling url =>
      simp only [hi, Option.some.injEq] at hs
      subst hs
      have h1 := hset (.sending (getHealthInfo (get i) url).sent (getHealthInfo (get i) url).ret)
      simp only [pendingURLs, getHealthInfo_sent_urls, Multiset.coe_singleton] at h1
      have h2 := add_right_cancel h1
      constructor
      · exact hu
      · simp only [List.length_set]
        rw [h2]
        exact hc
      · simpa using hl
      · intro p hmem
        rcases List.mem_or_eq_of_mem_set hmem with h3 | h3
        · exact ho p h3
        · subst h3
          obtain ⟨st, hst⟩ := getHealthInfo_sent (get i) url
          simp [pendingURLs, hasSent, hst]
      · cases hpc : s.pc <;> simpa [hpc] using hp
    | sending pending ret =>
      cases pending with
      | nil =>
        simp only [hi, Option.some.injEq] at hs
        subst hs
        have h1 := hset (.returned ret)
        simp only [pendingURLs, List.map_nil, Multiset.coe_nil, add_zero] at h1
        constructor
        · exact hu
        · simp only [List.length_set]
          rw [h1]
          exact hc
        · simpa using hl
        · intro p hmem
          rcases List.mem_or_eq_of_mem_set hmem with h3 | h3
          · exact ho p h3
          · subst h3
            simp [pendingURLs, hasSent]
        · cases hpc : s.pc <;> simpa [hpc] using hp
      | cons r rest =>
        simp only [hi] at hs
        by_cases hroom : s.ch.length < s.urls.length
        · simp only [hroom, if_true, Option.some.injEq] at hs
          subst hs
          have h1 := hset (.sending rest ret)
          simp only [pendingURLs, List.map_cons, ← Multiset.cons_coe,
            ← Multiset.singleton_add] at h1
          constructor
          · exact hu
          · simp only [List.length_set, List.map_append, List.map_cons, List.map_nil,
              ← Multiset.coe_add, Multiset.coe_singleton]
            rw [hc]
            have h3 : (List.map pendingURLs s.probes).sum =
                (List.map pendingURLs (s.probes.set i (.sending rest ret))).sum
                  + {r.URL} := by
              have h4 : (List.map pendingURLs (s.probes.set i (.sending rest ret))).sum
                  + ({r.URL} + ↑(List.map HealthCheckResult.URL rest))
                  = ((List.map pendingURLs (s.probes.set i (.sending rest ret))).sum
                  + {r.URL}) + ↑(List.map HealthCheckResult.URL rest) := by abel
              rw [h4] at h1
              exact (add_right_cancel h1).symm
            rw [h3]
            abel
          · simpa using hl
          · intro p hmem
            rcases List.mem_or_eq_of_mem_set hmem with h5 | h5
            · exact ho p h5
            · subst h5
              have h6 := ho _ (List.getElem?_mem hi)
              simp only [pendingURLs, hasSent, List.map_cons, Multiset.coe_card,
                List.length_cons, List.length_map] at h6
              have h7 : rest = [] := List.eq_nil_of_length_eq_zero (by simpa using h6)
              subst h7
              simp [pendingURLs, hasSent]
          · cases hpc : s.pc <;> simpa [hpc] using hp
        · simp [hroom] at hs
    | returned ret => simp [hi] at hs

theorem request_inv_step {urls : List String} {get : Nat → String → GetOutcome}
    {s s1 : HandlerState} {g : RequestGid} (h : RequestInv urls s) (hs : requestStep get s g = some s1) :
    RequestInv urls s1 := by
  cases g with
  | handler => exact inv_handlerStep h hs
  | probe i => exact inv_probeStep h hs

theorem request_inv_run {urls : List String} {get : Nat → String → GetOutcome} :
    ∀ (sched : List RequestGid) {s s1 : HandlerState}, RequestInv urls s → requestRun get s sched = some s1 →
      RequestInv urls s1
  | [], s, s1, h, hr => by
    simp only [requestRun, Option.some.injEq] at hr
    exact hr ▸ h
  | g :: rest, s, s1, h, hr => by
    simp only [requestRun] at hr
    cases hs : requestStep get s g with
    | none => simp [hs] at hr
    | some s2 =>
      simp only [hs, Option.bind_some] at hr
      exact request_inv_run rest (request_inv_step h hs) hr

theorem request_potential_step {get : Nat → String → GetOutcome} {s s1 : HandlerState} {g : RequestGid}
    (hs : requestStep get s g = some s1) : requestPotential s1 < requestPotential s := by
  cases g with
  | handler =>
    simp only [requestStep, handlerStep] at hs
    cases hpc : s.pc with
    | launching i =>
      simp only [hpc] at hs
      cases hi : s.urls[i]? with
      | some url =>
        simp only [hi, Option.some.injEq] at hs
        subst hs
        have hlt : i < s.urls.length := (List.getElem?_eq_some_iff.mp hi).1
        simp only [requestPotential, hpc, List.map_append, List.sum_append, List.map_cons,
          List.map_nil, List.sum_cons, List.sum_nil, probePotential]
        omega
      | none =>
        simp only [hi, Option.some.injEq] at hs
        subst hs
        simp only [requestPotential, hpc]
        omega
    | collecting j =>
      simp only [hpc] at hs
      by_cases hj : j < s.urls.length
      · simp only [hj, if_true] at hs
        cases hch : s.ch with
        | nil => simp [hch] at hs
        | cons r rest =>
          simp only [hch, Option.some.injEq] at hs
          subst hs
          simp only [requestPotential, hpc]
          omega
      · simp only [hj, if_false, Option.some.injEq] at hs
        subst hs
        simp only [requestPotential, hpc]
        omega
    | returned => simp [hpc] at hs
  | probe i =>
    simp only [requestStep, probeStep] at hs
    cases hi : s.probes[i]? with
    | none => simp [hi] at hs
    | some p =>
      have hset := fun x => GoModel.sum_map_set probePotential s.probes i p x hi
      cases p with
      | calling url =>
        simp only [hi, Option.some.injEq] at hs
        subst hs
        have h1 := hset (.sending (getHealthInfo (get i) url).sent (getHealthInfo (get i) url).ret)
        simp only [probePotential, getHealthInfo_sent_length] at h1
        simp only [requestPotential]
        omega
      | sending pending ret =>
        cases pending with
        | nil =>
          simp only [hi, Option.some.injEq] at hs
          subst hs
          have h1 := hset (.returned ret)
          simp only [probePotential, List.length_nil] at h1
          simp only [requestPotential]
          omega
        | cons r rest =>
          simp only [hi] at hs
          by_cases hroom : s.ch.length < s.urls.length
          · simp only [hroom, if_true, Option.some.injEq] at hs
            subst hs
            have h1 := hset (.sending rest ret)
            simp only [probePotential, List.length_cons] at h1
            simp only [requestPotential]
            omega
          · simp [hroom] at hs
      | returned ret => simp [hi] at hs

theorem request_potential_run {get : Nat → String → GetOutcome} :
    ∀ (sched : List RequestGid) {s s1 : HandlerState}, requestRun get s sched = some s1 →
      sched.length + requestPotential s1 ≤ requestPotential s
  | [], s, s1, hr => by
    simp only [requestRun, Option.some.injEq] at hr
    subst hr
    simp
  | g :: rest, s, s1, hr => by
    simp only [requestRun] at hr
    cases hs : requestStep get s g with
    | none => simp [hs] at hr
    | some s2 =>
      simp only [hs, Option.bind_some] at hr
      have h1 := request_potential_run rest hr
      have h2 := request_potential_step hs
      simp only [List.length_cons]
      omega

theorem card_pending_add_sent :
    ∀ (l : List ProbePC),
      (∀ p ∈ l, Multiset.card (pendingURLs p) + (if hasSent p then 1 else 0) = 1) →
      Multiset.card (l.map pendingURLs).sum + l.countP hasSent = l.length
  | [], _ => by simp
  | p :: l, h => by
    have h1 := h p (List.mem_cons_self p l)
    have h2 := card_pending_add_sent l (fun q hq => h q (List.mem_cons_of_mem p hq))
    simp only [List.map_cons, List.sum_cons, map_add, List.countP_cons, List.length_cons]
    omega

theorem request_inv_counts {urls : List String} {s : HandlerState} (h : RequestInv urls s) :
    s.probes.length = Multiset.card (s.probes.map pendingURLs).sum + s.ch.length
      + s.results.length := by
  have hcard := congrArg Multiset.card h.conserve
  simp only [Multiset.coe_card, List.length_take, map_add, List.length_map] at hcard
  have := h.launched
  omega

theorem progress {urls : List String} (get : Nat → String → GetOutcome) {s : HandlerState}
    (h : RequestInv urls s) (hne : s.pc ≠ .returned) : ∃ g, (requestStep get s g).isSome = true := by
  have hcount := request_inv_counts h
  obtain ⟨hu, hc, hl, ho, hp⟩ := h
  cases hpc : s.pc with
  | launching i =>
    refine ⟨.handler, ?_⟩
    simp only [requestStep, handlerStep, hpc]
    cases s.urls[i]? <;> simp
  | collecting j =>
    simp only [hpc] at hp
    by_cases hj : j < s.urls.length
    · cases hch : s.ch with
      | cons r rest =>
        refine ⟨.handler, ?_⟩
        simp [requestStep, handlerStep, hpc, hj, hch]
      | nil =>
        rw [hu] at hj
        have hpos : 0 < (s.probes.map (fun p => Multiset.card (pendingURLs p))).sum := by
          have h1 : Multiset.card (s.probes.map pendingURLs).sum
              = (s.probes.map (fun p => Multiset.card (pendingURLs p))).sum := by
            rw [map_list_sum, List.map_map]
            rfl
          rw [← h1]
          simp only [hch, List.length_nil] at hcount
          omega
        obtain ⟨i, p, hi, hpi⟩ := GoModel.exists_pos_of_sum_pos _ _ hpos
        refine ⟨.probe i, ?_⟩
        cases p with
        | calling url => simp [requestStep, probeStep, hi]
        | sending pending ret =>
          cases pending with
          | nil => simp [pendingURLs] at hpi
          | cons r rest =>
            have : 0 < s.urls.length := by rw [hu]; omega
            simp [requestStep, probeStep, hi, hch, this]
        | returned ret => simp [pendingURLs] at hpi
    · refine ⟨.handler, ?_⟩
      simp [requestStep, handlerStep, hpc, hj]
  | returned => exact absurd hpc hne

/-! # Claims about the health checker -/

/-- C2 (counterexample): a response with status code 204, which is in the 2xx
class, is classified as down: only status code 200 is classified as up. -/
theorem getHealthInfo_204_is_down :
    is2xx 204 = true ∧
    (getHealthInfo (fun _ => GetOutcome.resp 204) "http://up.example").sent
      = [{ URL := "http://up.example", Status := "Down" }] := by
  decide

/-- C2 (amended): getHealthInfo sends one result whose status is "UP" exactly
when a response was received with status code 200 (http.StatusOK); for every other
outcome (an error, or a response with any other status code) the status is
"Down". -/
theorem getHealthInfo_up_iff_status_ok (get : String → GetOutcome) (url : String) :
    ∃ status, (getHealthInfo get url).sent = [{ URL := url, Status := status }] ∧
      ((status = "UP" ∧ get url = GetOutcome.resp StatusOK) ∨
       (status = "Down" ∧ get url ≠ GetOutcome.resp StatusOK)) := by
  unfold getHealthInfo
  cases hg : get url with
  | err e => exact ⟨"Down", rfl, Or.inr ⟨rfl, by simp⟩⟩
  | resp code =>
    by_cases hc : code = StatusOK
    · exact ⟨"UP", by simp [hc], Or.inl ⟨rfl, by rw [hc]⟩⟩
    · exact ⟨"Down", by simp [hc], Or.inr ⟨rfl, by simpa using hc⟩⟩

/-- C3 (counterexample): a probe that times out sends a result whose status
is neither "UP" nor "DOWN": the down value of the code is "Down". -/
theorem getHealthInfo_timeout_not_upper_case :
    ∃ r ∈ (getHealthInfo (fun _ => GetOutcome.err "timeout") "http://down.example").sent,
      r.Status = "Down" ∧ r.Status ≠ "UP" ∧ r.Status ≠ "DOWN" := by
  decide

/-- C3 (amended): every result getHealthInfo sends has status "UP" or "Down"; an
error of the request (timeout, refused connection) yields "Down", HTTP 200 yields
"UP" and HTTP 500 yields "Down". -/
theorem getHealthInfo_status_values (get : String → GetOutcome) (url : String) :
    (∀ r ∈ (getHealthInfo get url).sent, r.Status = "UP" ∨ r.Status = "Down") ∧
    (∀ e, get url = GetOutcome.err e →
      (getHealthInfo get url).sent = [{ URL := url, Status := "Down" }]) ∧
    (get url = GetOutcome.resp 200 →
      (getHealthInfo get url).sent = [{ URL := url, Status := "UP" }]) ∧
    (get url = GetOutcome.resp 500 →
      (getHealthInfo get url).sent = [{ URL := url, Status := "Down" }]) := by
  unfold getHealthInfo
  refine ⟨?_, ?_, ?_, ?_⟩
  · cases hg : get url with
    | err e => simp
    | resp code =>
      by_cases hc : code = StatusOK <;> simp [hc]
  · intro e he
    simp [he]
  · intro h
    simp [h, StatusOK]
  · intro h
    simp [h, StatusOK]

/-- C3 (witness): the three outcomes of the spec at concrete targets. -/
theorem getHealthInfo_status_values_witness :
    (getHealthInfo (fun _ => GetOutcome.err "timeout") "http://down.example").sent
      = [{ URL := "http://down.example", Status := "Down" }] ∧
    (getHealthInfo (fun _ => GetOutcome.resp 200) "http://up.example").sent
      = [{ URL := "http://up.example", Status := "UP" }] ∧
    (getHealthInfo (fun _ => GetOutcome.resp 500) "http://err.example").sent
      = [{ URL := "http://err.example", Status := "Down" }] :=
  ⟨(getHealthInfo_status_values (fun _ => GetOutcome.err "timeout") "http://down.example").2.1
      "timeout" rfl,
   (getHealthInfo_status_values (fun _ => GetOutcome.resp 200) "http://up.example").2.2.1 rfl,
   (getHealthInfo_status_values (fun _ => GetOutcome.resp 500) "http://err.example").2.2.2 rfl⟩

/-- C4: for every URL and every outcome of the request, one call of getHealthInfo
sends exactly one result on the channel, and its URL is the URL the call was given;
when the request fails the call returns that error and the one result it sends has
the down status, and when a response arrives the call returns nil. -/
theorem getHealthInfo_sends_exactly_one (get : String → GetOutcome) (url : String) :
    (getHealthInfo get url).sent.length = 1 ∧
    (getHealthInfo get url).sent.map HealthCheckResult.URL = [url] ∧
    (match get url with
      | GetOutcome.err e =>
        (getHealthInfo get url).ret = some e ∧
        (getHealthInfo get url).sent = [{ URL := url, Status := "Down" }]
      | GetOutcome.resp _ => (getHealthInfo get url).ret = none) := by
  refine ⟨getHealthInfo_sent_length get url, getHealthInfo_sent_urls get url, ?_⟩
  unfold getHealthInfo
  cases hg : get url <;> simp

/-- C1: for every decoded batch of URLs, every answer of the network and every
schedule of the handler and its probes: the run has at most 5 M + 2 steps; as long as
the handler has not returned some goroutine can move; and once the handler has
returned it has collected exactly M results whose URLs are a permutation of the input
(none for an empty batch) and has written their encoding as the response. -/
theorem healthCheckHandler_collects_every_url (urls : List String)
    (get : Nat → String → GetOutcome) (sched : List RequestGid) (s : HandlerState)
    (h : requestRun get (healthCheckHandler (.ok urls)) sched = some s) :
    sched.length ≤ 5 * urls.length + 2 ∧
    (s.pc ≠ HandlerPC.returned → ∃ g, (requestStep get s g).isSome = true) ∧
    (s.pc = HandlerPC.returned →
      s.results.length = urls.length ∧
      (s.results.map HealthCheckResult.URL).Perm urls ∧
      (urls = [] → s.results = []) ∧
      s.w.body = Body.json (encodeResults s.results)) := by
  have hinv := request_inv_run sched (inv_start urls) h
  have hpot := request_potential_run sched h
  refine ⟨?_, progress get hinv, ?_⟩
  · simp only [requestPotential, healthCheckHandler, List.map_nil, List.sum_nil] at hpot
    omega
  · intro hpc
    have hcount := request_inv_counts hinv
    obtain ⟨hu, hc, hl, ho, hp⟩ := hinv
    simp only [hpc] at hp
    obtain ⟨hp1, hp2, hp3⟩ := hp
    have hz1 : (s.probes.map pendingURLs).sum = 0 := by
      apply Multiset.card_eq_zero.mp
      omega
    have hz2 : s.ch = [] := by
      apply List.eq_nil_of_length_eq_zero
      omega
    refine ⟨hp2, ?_, ?_, ?_⟩
    · rw [hp1, List.take_length, hz1, hz2] at hc
      simp only [List.map_nil, Multiset.coe_nil, add_zero, zero_add] at hc
      exact (Multiset.coe_eq_coe.mp hc).symm
    · intro hnil
      apply List.eq_nil_of_length_eq_zero
      rw [hp2, hnil]
      rfl
    · rw [hp3]
      rfl

/-- C1 (witness): the scenario of the spec, with the second probe reporting first. -/
theorem healthCheckHandler_collects_every_url_witness :
    ∃ s, requestRun scenarioGet (healthCheckHandler (.ok scenarioURLs)) scenarioSchedule = some s ∧
      s.pc = HandlerPC.returned ∧
      s.results = [{ URL := "http://down.example", Status := "Down" },
                   { URL := "http://up.example", Status := "UP" }] ∧
      (s.results.map HealthCheckResult.URL).Perm scenarioURLs :=
  ⟨_, rfl, rfl, rfl,
    ((healthCheckHandler_collects_every_url scenarioURLs scenarioGet scenarioSchedule _
      rfl).2.2 rfl).2.1⟩

/-- C5: when the body does not decode, in every run the handler has answered with
status 400 and the plain-text message "Invalid request", no probe goroutine exists,
nothing is collected and no goroutine ever moves; when the body decodes, the status
of the response is never 400: it is unset or 200. -/
theorem healthCheckHandler_bad_request (decoded : Except String (List String))
    (get : Nat → String → GetOutcome) (sched : List RequestGid) (s : HandlerState)
    (h : requestRun get (healthCheckHandler decoded) sched = some s) :
    match decoded with
    | .error _ =>
      sched = [] ∧ s.pc = HandlerPC.returned ∧ s.probes = [] ∧ s.results = [] ∧
      s.w.status = some 400 ∧ s.w.contentType = "text/plain; charset=utf-8" ∧
      s.w.body = Body.text "Invalid request\n"
    | .ok _ => s.w.status ≠ some 400 ∧ (s.w.status = none ∨ s.w.status = some 200) := by
  cases decoded with
  | error e =>
    cases sched with
    | nil =>
      simp only [requestRun, Option.some.injEq] at h
      subst h
      simp [healthCheckHandler, httpError, StatusBadRequest, ResponseWriter.fresh]
    | cons g rest =>
      cases g with
      | handler => simp [requestRun, requestStep, handlerStep, healthCheckHandler] at h
      | probe i => simp [requestRun, requestStep, probeStep, healthCheckHandler] at h
  | ok urls =>
    have hinv := request_inv_run sched (inv_start urls) h
    have hp := hinv.at_pc
    cases hpc : s.pc with
    | launching i =>
      simp only [hpc] at hp
      simp [hp.2.2, ResponseWriter.fresh]
    | collecting j =>
      simp only [hpc] at hp
      simp [hp.2.2, ResponseWriter.fresh]
    | returned =>
      simp only [hpc] at hp
      rw [hp.2.2]
      simp [ResponseWriter.fresh, writeResults]

/-- C5 (witness): a body that does not decode, and the scenario that does. -/
theorem healthCheckHandler_bad_request_witness :
    (healthCheckHandler (.error "invalid character")).w.status = some 400 ∧
    (healthCheckHandler (.error "invalid character")).probes = [] ∧
    (∃ s, requestRun scenarioGet (healthCheckHandler (.ok scenarioURLs)) scenarioSchedule = some s ∧
      s.w.status = some 200) :=
  ⟨(healthCheckHandler_bad_request (.error "invalid character") scenarioGet [] _ rfl).2.2.2.2.1,
   (healthCheckHandler_bad_request (.error "invalid character") scenarioGet [] _ rfl).2.2.1,
   ⟨_, rfl, rfl⟩⟩

/-- C8 (the code at the failing input): the object encoded for the up result of
http://up.example has the keys URL and Status, the Go field names: the tags of
HealthCheckResult have a blank after the colon, so no json key is found in them;
the same tags without the blank give the keys url and status. -/
theorem encodeResults_uses_field_names :
    encodeResults [{ URL := "http://up.example", Status := "UP" }]
      = [[("URL", "http://up.example"), ("Status", "UP")]] ∧
    HealthCheckResult_fields.map jsonKey = [some "URL", some "Status"] ∧
    HealthCheckResult_fields.map (fun f => StructTag.Get f.Tag "json") = ["", ""] ∧
    jsonKey { Name := "URL", Tag := "json:\"url\"" } = some "url" ∧
    jsonKey { Name := "Status", Tag := "json:\"status\"" } = some "status" := by
  decide

/-- C9: in every reachable state of a request with M URLs, the values buffered in
the channel plus the values already collected are exactly the probes that have
sent, which are at most the probes launched, which are at most M; and a probe
that stands at its send finds room in the channel, so its step is not blocked. -/
theorem result_channel_never_blocks (urls : List String) (get : Nat → String → GetOutcome)
    (sched : List RequestGid) (s : HandlerState)
    (h : requestRun get (healthCheckHandler (.ok urls)) sched = some s) :
    s.ch.length + s.results.length = s.probes.countP hasSent ∧
    s.probes.countP hasSent ≤ s.probes.length ∧
    s.probes.length ≤ urls.length ∧
    s.ch.length ≤ urls.length ∧
    (∀ i r rest ret, s.probes[i]? = some (ProbePC.sending (r :: rest) ret) →
      s.ch.length < urls.length ∧ (requestStep get s (RequestGid.probe i)).isSome = true) := by
  have hinv := request_inv_run sched (inv_start urls) h
  have hcount := request_inv_counts hinv
  have hsent := card_pending_add_sent s.probes hinv.one_send
  have hl := hinv.launched
  have hle : s.probes.countP hasSent ≤ s.probes.length := List.countP_le_length _
  refine ⟨by omega, hle, hl, by omega, ?_⟩
  intro i r rest ret hi
  have hlt : s.probes.countP hasSent < s.probes.length := by
    by_contra hcon
    have hall : s.probes.countP hasSent = s.probes.length := by omega
    have := List.countP_eq_length.mp hall _ (List.getElem?_mem hi)
    simp [hasSent] at this
  have hroom : s.ch.length < urls.length := by omega
  refine ⟨hroom, ?_⟩
  simp [requestStep, probeStep, hi, hinv.urls_eq, hroom]

/-- C9 (witness): in the scenario, when the second probe has sent and the handler
has not started to receive, the channel holds one value and the first probe, which
stands at its send, finds room. -/
theorem result_channel_never_blocks_witness :
    ∃ s, requestRun scenarioGet (healthCheckHandler (.ok scenarioURLs)) scenarioOneSent = some s ∧
      s.pc = HandlerPC.launching 2 ∧
      s.ch = [{ URL := "http://down.example", Status := "Down" }] ∧
      s.probes[0]? = some (ProbePC.sending [{ URL := "http://up.example", Status := "UP" }] none) ∧
      s.ch.length < scenarioURLs.length ∧ (requestStep scenarioGet s (RequestGid.probe 0)).isSome = true :=
  ⟨_, rfl, rfl, rfl, rfl,
    (result_channel_never_blocks scenarioURLs scenarioGet scenarioOneSent _ rfl).2.2.2.2
      0 _ _ _ rfl⟩

end HealthChecker

namespace WorkerPool

/-! # The pool: termination -/

theorem potential_mainStep {cfg : Config} {s s1 : State} (hs : mainStep cfg s = some s1) :
    poolPotential cfg s1 < poolPotential cfg s := by
  unfold mainStep at hs
  cases hpc : s.pc with
  | starting i =>
    simp only [hpc] at hs
    by_cases hi : i ≤ cfg.numWorkers
    · simp only [hi, if_true, Option.some.injEq] at hs
      subst hs
      simp only [poolPotential, hpc, List.map_append, List.sum_append, List.map_cons,
        List.map_nil, List.sum_cons, List.sum_nil, workerPotential]
      omega
    · simp only [hi, if_false, Option.some.injEq] at hs
      subst hs
      simp only [poolPotential, hpc]
      omega
  | sending k =>
    simp only [hpc] at hs
    cases hk : cfg.tasks[k]? with
    | some task =>
      simp only [hk] at hs
      have hlt : k < cfg.tasks.length := (List.getElem?_eq_some_iff.mp hk).1
      by_cases hroom : s.taskChannel.length < cfg.taskCap
      · simp only [hroom, if_true, Option.some.injEq] at hs
        subst hs
        simp only [poolPotential, hpc, List.length_append, List.length_singleton]
        omega
      · simp [hroom] at hs
    | none =>
      simp only [hk, Option.some.injEq] at hs
      subst hs
      simp only [poolPotential, hpc]
      omega
  | collecting i =>
    simp only [hpc] at hs
    by_cases hi : i < cfg.tasks.length
    · simp only [hi, if_true] at hs
      cases hch : s.resultChannel with
      | nil => simp [hch] at hs
      | cons r rest =>
        simp only [hch, Option.some.injEq] at hs
        subst hs
        simp only [poolPotential, hpc, hch, List.length_cons]
        omega
    · simp only [hi, if_false, Option.some.injEq] at hs
      subst hs
      simp only [poolPotential, hpc]
      omega
  | done => simp [hpc] at hs

theorem workerPotential_receiving : workerPotential .receiving = 1 := rfl
theorem workerPotential_processing (t : Task) : workerPotential (.processing t) = 4 := rfl
theorem workerPotential_sending (t : Task) : workerPotential (.sending t) = 3 := rfl
theorem workerPotential_done : workerPotential .done = 0 := rfl

theorem potential_processTasks {cfg : Config} {s s1 : State} {n : Nat}
    (hs : processTasks cfg s n = some s1) : poolPotential cfg s1 < poolPotential cfg s := by
  unfold processTasks at hs
  cases hn : s.workers[n]? with
  | none => simp [hn] at hs
  | some g =>
    have hset : ∀ x : WorkerProc,
        ((s.workers.set n x).map (fun g => workerPotential g.pc)).sum + workerPotential g.pc
          = (s.workers.map (fun g => workerPotential g.pc)).sum + workerPotential x.pc :=
      fun x => GoModel.sum_map_set (fun g : WorkerProc => workerPotential g.pc) s.workers n g x hn
    simp only [hn] at hs
    cases hg : g.pc with
    | receiving =>
      simp only [hg] at hs hset
      cases htc : s.taskChannel with
      | cons task rest =>
        simp only [htc, Option.some.injEq] at hs
        subst hs
        have h1 := hset { g with pc := .processing task }
        simp only [workerPotential_receiving, workerPotential_processing,
          workerPotential_sending, workerPotential_done] at h1
        simp only [poolPotential, htc, List.length_cons]
        omega
      | nil =>
        simp only [htc] at hs
        by_cases hcl : s.closed = true
        · simp only [hcl, if_true, Option.some.injEq] at hs
          subst hs
          have h1 := hset { g with pc := .done }
          simp only [workerPotential_receiving, workerPotential_processing,
          workerPotential_sending, workerPotential_done] at h1
          simp only [poolPotential, htc]
          omega
        · simp only [hcl, Bool.false_eq_true, if_false] at hs
          cases hpc : s.pc with
          | sending k =>
            simp only [hpc] at hs
            cases hk : cfg.tasks[k]? with
            | some task =>
              simp only [hk] at hs
              have hlt : k < cfg.tasks.length := (List.getElem?_eq_some_iff.mp hk).1
              by_cases hcap : cfg.taskCap = 0
              · simp only [hcap, if_true, Option.some.injEq] at hs
                subst hs
                have h1 := hset { g with pc := .processing task }
                simp only [workerPotential_receiving, workerPotential_processing,
          workerPotential_sending, workerPotential_done] at h1
                simp only [poolPotential, hpc, htc]
                omega
              · simp [hcap] at hs
            | none => simp [hk] at hs
          | starting i => simp [hpc] at hs
          | collecting i => simp [hpc] at hs
          | done => simp [hpc] at hs
    | processing task =>
      simp only [hg, Option.some.injEq] at hs hset
      subst hs
      have h1 := hset { g with pc := .sending { task with processed := true } }
      simp only [workerPotential_receiving, workerPotential_processing,
          workerPotential_sending, workerPotential_done] at h1
      simp only [poolPotential]
      omega
    | sending task =>
      simp only [hg] at hs hset
      by_cases hroom : s.resultChannel.length < cfg.resultCap
      · simp only [hroom, if_true, Option.some.injEq] at hs
        subst hs
        have h1 := hset { g with pc := .receiving }
        simp only [workerPotential_receiving, workerPotential_processing,
          workerPotential_sending, workerPotential_done] at h1
        simp only [poolPotential, List.length_append, List.length_singleton]
        omega
      · simp only [hroom, if_false] at hs
        cases hpc : s.pc with
        | collecting i =>
          simp only [hpc] at hs
          by_cases hcap : cfg.resultCap = 0 ∧ i < cfg.tasks.length
          · simp only [hcap, and_self, if_true, Option.some.injEq] at hs
            subst hs
            have h1 := hset { g with pc := .receiving }
            simp only [workerPotential_receiving, workerPotential_processing,
          workerPotential_sending, workerPotential_done] at h1
            simp only [poolPotential, hpc]
            omega
          · simp [hcap] at hs
        | starting i => simp [hpc] at hs
        | sending k => simp [hpc] at hs
        | done => simp [hpc] at hs
    | done => simp [hg] at hs

theorem pool_potential_step {cfg : Config} {s s1 : State} {g : PoolGid}
    (hs : poolStep cfg s g = some s1) : poolPotential cfg s1 < poolPotential cfg s := by
  cases g with
  | main => exact potential_mainStep hs
  | worker n => exact potential_processTasks hs

theorem pool_potential_run {cfg : Config} :
    ∀ (sched : List PoolGid) {s s1 : State}, poolRun cfg s sched = some s1 →
      sched.length + poolPotential cfg s1 ≤ poolPotential cfg s
  | [], s, s1, hr => by
    simp only [poolRun, Option.some.injEq] at hr
    subst hr
    simp
  | g :: rest, s, s1, hr => by
    simp only [poolRun] at hr
    cases hs : poolStep cfg s g with
    | none => simp [hs] at hr
    | some s2 =>
      simp only [hs, Option.bind_some] at hr
      have h1 := pool_potential_run rest hr
      have h2 := pool_potential_step hs
      simp only [List.length_cons]
      omega

theorem run_append {cfg : Config} :
    ∀ (a b : List PoolGid) {s s1 s2 : State}, poolRun cfg s a = some s1 → poolRun cfg s1 b = some s2 →
      poolRun cfg s (a ++ b) = some s2
  | [], b, s, s1, s2, h1, h2 => by
    simp only [poolRun, Option.some.injEq] at h1
    subst h1
    simpa using h2
  | g :: rest, b, s, s1, s2, h1, h2 => by
    simp only [poolRun, List.cons_append] at h1 ⊢
    cases hs : poolStep cfg s g with
    | none => simp [hs] at h1
    | some s3 =>
      simp only [hs, Option.bind_some] at h1 ⊢
      exact run_append rest b h1 h2

/-- Every state can be run on until no goroutine can move. -/
theorem exists_stuck_run (cfg : Config) :
    ∀ (n : Nat) (s : State), poolPotential cfg s ≤ n →
      ∃ sched s1, poolRun cfg s sched = some s1 ∧ Stuck cfg s1
  | 0, s, hn => by
    refine ⟨[], s, rfl, ?_⟩
    intro g
    cases hs : poolStep cfg s g with
    | none => rfl
    | some s2 =>
      have := pool_potential_step hs
      omega
  | n + 1, s, hn => by
    by_cases hstuck : Stuck cfg s
    · exact ⟨[], s, rfl, hstuck⟩
    · simp only [Stuck, not_forall] at hstuck
      obtain ⟨g, hg⟩ := hstuck
      cases hs : poolStep cfg s g with
      | none => exact absurd hs hg
      | some s2 =>
        have hlt := pool_potential_step hs
        obtain ⟨sched, s1, hr, hst⟩ := exists_stuck_run cfg n s2 (by omega)
        refine ⟨g :: sched, s1, ?_, hst⟩
        simp [poolRun, hs, hr]

theorem run_of_stuck {cfg : Config} {s s1 : State} (hst : Stuck cfg s) :
    ∀ (sched : List PoolGid), poolRun cfg s sched = some s1 → s1 = s
  | [], hr => by
    simp only [poolRun, Option.some.injEq] at hr
    exact hr.symm
  | g :: rest, hr => by
    simp [poolRun, hst g] at hr

/-! # The pool: invariant -/

theorem heldIds_receiving : heldIds .receiving = 0 := rfl
theorem heldIds_processing (t : Task) : heldIds (.processing t) = {t.id} := rfl
theorem heldIds_sending (t : Task) : heldIds (.sending t) = {t.id} := rfl
theorem heldIds_done : heldIds .done = 0 := rfl

theorem card_heldIds_le (pc : WorkerPC) : Multiset.card (heldIds pc) ≤ 1 := by
  cases pc <;> simp [heldIds]

theorem card_held_le :
    ∀ (l : List WorkerProc), Multiset.card (l.map (fun g => heldIds g.pc)).sum ≤ l.length
  | [] => by simp
  | g :: l => by
    have h1 := card_heldIds_le g.pc
    have h2 := card_held_le l
    simp only [List.map_cons, List.sum_cons, map_add, List.length_cons]
    omega

theorem card_held_sending :
    ∀ (l : List WorkerProc), (∀ g ∈ l, ∃ t, g.pc = .sending t) →
      Multiset.card (l.map (fun g => heldIds g.pc)).sum = l.length
  | [], _ => by simp
  | g :: l, h => by
    obtain ⟨t, ht⟩ := h g (List.mem_cons_self g l)
    have h2 := card_held_sending l (fun q hq => h q (List.mem_cons_of_mem g hq))
    simp only [List.map_cons, List.sum_cons, map_add, List.length_cons, ht, heldIds_sending,
      Multiset.card_singleton]
    omega

theorem held_done :
    ∀ (l : List WorkerProc), (∀ g ∈ l, g.pc = .done) →
      (l.map (fun g => heldIds g.pc)).sum = 0
  | [], _ => by simp
  | g :: l, h => by
    have h1 := h g (List.mem_cons_self g l)
    have h2 := held_done l (fun q hq => h q (List.mem_cons_of_mem g hq))
    simp only [List.map_cons, List.sum_cons, h1, heldIds_done, h2, add_zero]

theorem sentCount_le {cfg : Config} {s : State} (h : PoolInv cfg s) :
    sentCount cfg s.pc ≤ cfg.tasks.length := by
  have hp := h.at_pc
  cases hpc : s.pc with
  | starting i => simp [sentCount]
  | sending k =>
    simp only [hpc, AtPc] at hp
    exact hp.1
  | collecting i => simp [sentCount]
  | done => simp [sentCount]

theorem pool_inv_counts {cfg : Config} {s : State} (h : PoolInv cfg s) :
    sentCount cfg s.pc = s.taskChannel.length
      + Multiset.card (s.workers.map (fun g => heldIds g.pc)).sum
      + s.resultChannel.length + s.results.length := by
  have hcard := congrArg Multiset.card h.conserve
  simp only [Multiset.coe_card, List.length_take, map_add, List.length_map] at hcard
  have := sentCount_le h
  omega

theorem inv_main (cfg : Config) : PoolInv cfg (main cfg) := by
  constructor <;> simp [main, sentCount, AtPc]

theorem inv_mainStep {cfg : Config} {s s1 : State} (h : PoolInv cfg s)
    (hs : mainStep cfg s = some s1) : PoolInv cfg s1 := by
  have hcount := pool_inv_counts h
  have hheld := card_held_le s.workers
  obtain ⟨htl, hrl, hc, hpc1, hpr, hph, hex, hth, hp⟩ := h
  unfold mainStep at hs
  cases hpc : s.pc with
  | starting i =>
    simp only [hpc] at hs
    simp only [hpc, AtPc] at hp
    simp only [hpc, sentCount] at hc
    by_cases hi : i ≤ cfg.numWorkers
    · simp only [hi, if_true, Option.some.injEq] at hs
      subst hs
      refine ⟨htl, hrl, ?_, hpc1, hpr, ?_, ?_, hth, ?_⟩
      · simp only [sentCount, List.map_append, List.sum_append, List.map_cons, List.map_nil,
          List.sum_cons, List.sum_nil, heldIds_receiving, add_zero]
        exact hc
      · intro g hmem t ht
        rcases List.mem_append.mp hmem with h1 | h1
        · exact hph g h1 t ht
        · simp only [List.mem_singleton] at h1
          subst h1
          simp at ht
      · intro g hmem hd
        rcases List.mem_append.mp hmem with h1 | h1
        · exact hex g h1 hd
        · simp only [List.mem_singleton] at h1
          subst h1
          simp at hd
      · simp only [AtPc, List.length_append, List.length_singleton]
        refine ⟨by omega, by omega, by omega, hp.2.2.2.1, hp.2.2.2.2⟩
    · simp only [hi, if_false, Option.some.injEq] at hs
      subst hs
      refine ⟨htl, hrl, ?_, hpc1, hpr, hph, hex, hth, ?_⟩
      · simp only [sentCount]
        exact hc
      · simp only [AtPc]
        refine ⟨by omega, ?_, hp.2.2.2.1, hp.2.2.2.2⟩
        omega
  | sending k =>
    simp only [hpc] at hs
    simp only [hpc, AtPc] at hp
    simp only [sentCount, hpc] at hc hcount
    cases hk : cfg.tasks[k]? with
    | some task =>
      simp only [hk] at hs
      have hlt : k < cfg.tasks.length := (List.getElem?_eq_some_iff.mp hk).1
      by_cases hroom : s.taskChannel.length < cfg.taskCap
      · simp only [hroom, if_true, Option.some.injEq] at hs
        subst hs
        refine ⟨?_, hrl, ?_, hpc1, hpr, hph, ?_, hth, ?_⟩
        · simp only [List.length_append, List.length_singleton]
          omega
        · simp only [sentCount, List.take_succ, hk, Option.toList_some, List.map_append,
            List.map_cons, List.map_nil, ← Multiset.coe_add, Multiset.coe_singleton]
          rw [hc]
          abel
        · intro g hmem hd
          have := (hex g hmem hd).1
          simp [hp.2.2.1] at this
        · simp only [AtPc]
          exact ⟨by omega, hp.2.1, hp.2.2.1, hp.2.2.2⟩
      · simp [hroom] at hs
    | none =>
      simp only [hk, Option.some.injEq] at hs
      subst hs
      have hge : cfg.tasks.length ≤ k := List.getElem?_eq_none_iff.mp hk
      have hkeq : k = cfg.tasks.length := by omega
      refine ⟨htl, hrl, ?_, hpc1, hpr, hph, ?_, ?_, ?_⟩
      · simp only [sentCount]
        rw [← hkeq]
        exact hc
      · intro g hmem hd
        have := (hex g hmem hd).1
        simp [hp.2.2.1] at this
      · intro _
        simp only [hp.2.2.2, List.length_nil] at hcount
        omega
      · simp [AtPc, hp]
  | collecting i =>
    simp only [hpc] at hs
    simp only [hpc, AtPc] at hp
    simp only [sentCount, hpc] at hc
    by_cases hi : i < cfg.tasks.length
    · simp only [hi, if_true] at hs
      cases hch : s.resultChannel with
      | nil => simp [hch] at hs
      | cons r rest =>
        simp only [hch, Option.some.injEq] at hs
        subst hs
        rw [hch] at hrl hpc1 hc
        refine ⟨htl, ?_, ?_, ?_, ?_, hph, hex, hth, ?_⟩
        · simp only [List.length_cons] at hrl
          dsimp only
          omega
        · simp only [sentCount, List.map_append, List.map_cons, List.map_nil,
            ← Multiset.coe_add, Multiset.coe_singleton]
          rw [hc]
          simp only [List.map_cons, ← Multiset.cons_coe, ← Multiset.singleton_add]
          abel
        · intro t ht
          exact hpc1 t (List.mem_cons_of_mem r ht)
        · intro t ht
          rcases List.mem_append.mp ht with h1 | h1
          · exact hpr t h1
          · simp only [List.mem_singleton] at h1
            subst h1
            exact hpc1 t (List.mem_cons_self t rest)
        · simp only [AtPc, List.length_append, List.length_singleton]
          exact ⟨by omega, hp.2.1, hp.2.2.1, by omega⟩
    · simp only [hi, if_false, Option.some.injEq] at hs
      subst hs
      refine ⟨htl, hrl, ?_, hpc1, hpr, hph, hex, hth, ?_⟩
      · simp only [sentCount]
        exact hc
      · simp only [AtPc]
        refine ⟨hp.2.1, hp.2.2.1, ?_⟩
        omega
  | done => simp [hpc] at hs

theorem inv_processTasks {cfg : Config} {s s1 : State} {n : Nat} (h : PoolInv cfg s)
    (hs : processTasks cfg s n = some s1) : PoolInv cfg s1 := by
  obtain ⟨htl, hrl, hc, hpc1, hpr, hph, hex, hth, hp⟩ := h
  unfold processTasks at hs
  cases hn : s.workers[n]? with
  | none => simp [hn] at hs
  | some g =>
    have hgmem : g ∈ s.workers := List.getElem?_mem hn
    have hset : ∀ x : WorkerProc,
        ((s.workers.set n x).map (fun g => heldIds g.pc)).sum + heldIds g.pc
          = (s.workers.map (fun g => heldIds g.pc)).sum + heldIds x.pc :=
      fun x => GoModel.sum_map_set (fun g : WorkerProc => heldIds g.pc) s.workers n g x hn
    simp only [hn] at hs
    cases hg : g.pc with
    | receiving =>
      simp only [hg] at hs hset
      simp only [heldIds_receiving, add_zero] at hset
      cases htc : s.taskChannel with
      | cons task rest =>
        simp only [htc, Option.some.injEq] at hs
        subst hs
        rw [htc] at htl hc
        refine ⟨?_, hrl, ?_, hpc1, hpr, ?_, ?_, hth, ?_⟩
        · simp only [List.length_cons] at htl
          dsimp only
          omega
        · dsimp only
          rw [hset, hc]
          simp only [heldIds_processing, List.map_cons, ← Multiset.cons_coe,
            ← Multiset.singleton_add]
          abel
        · intro g1 hmem t ht
          rcases List.mem_or_eq_of_mem_set hmem with h1 | h1
          · exact hph g1 h1 t ht
          · subst h1
            simp at ht
        · intro g1 hmem hd
          rcases List.mem_or_eq_of_mem_set hmem with h1 | h1
          · have := (hex g1 h1 hd).2
            simp [htc] at this
          · subst h1
            simp at hd
        · dsimp only
          rw [List.length_set]
          exact hp
      | nil =>
        simp only [htc] at hs
        by_cases hcl : s.closed = true
        · simp only [hcl, if_true, Option.some.injEq] at hs
          subst hs
          rw [htc] at htl hc
          rw [hcl] at hp
          refine ⟨htl, hrl, ?_, hpc1, hpr, ?_, ?_, fun _ => hth hcl, ?_⟩
          · dsimp only
            rw [hset, hc]
            simp only [heldIds_done, add_zero]
          · intro g1 hmem t ht
            rcases List.mem_or_eq_of_mem_set hmem with h1 | h1
            · exact hph g1 h1 t ht
            · subst h1
              simp at ht
          · intro g1 hmem hd
            exact ⟨rfl, rfl⟩
          · dsimp only
            rw [List.length_set]
            exact hp
        · simp only [hcl, Bool.false_eq_true, if_false] at hs
          cases hpc : s.pc with
          | sending k =>
            simp only [hpc] at hs
            simp only [hpc, AtPc] at hp
            simp only [hpc, sentCount] at hc
            cases hk : cfg.tasks[k]? with
            | some task =>
              simp only [hk] at hs
              have hlt : k < cfg.tasks.length := (List.getElem?_eq_some_iff.mp hk).1
              by_cases hcap : cfg.taskCap = 0
              · simp only [hcap, if_true, Option.some.injEq] at hs
                subst hs
                rw [htc] at htl hc
                refine ⟨htl, hrl, ?_, hpc1, hpr, ?_, ?_, fun hf => absurd hf (by simp), ?_⟩
                · dsimp only
                  rw [hset]
                  simp only [sentCount, List.take_succ, hk, Option.toList_some,
                    List.map_append, List.map_cons, List.map_nil, ← Multiset.coe_add,
                    Multiset.coe_singleton, heldIds_processing]
                  rw [hc]
                  simp only [List.map_nil]
                  abel
                · intro g1 hmem t ht
                  rcases List.mem_or_eq_of_mem_set hmem with h1 | h1
                  · exact hph g1 h1 t ht
                  · subst h1
                    simp at ht
                · intro g1 hmem hd
                  rcases List.mem_or_eq_of_mem_set hmem with h1 | h1
                  · have := (hex g1 h1 hd).1
                    simp [hp.2.2.1] at this
                  · subst h1
                    simp at hd
                · simp only [AtPc, List.length_set]
                  exact ⟨by omega, hp.2.1, trivial, hp.2.2.2⟩
              · simp [hcap] at hs
            | none => simp [hk] at hs
          | starting i => simp [hpc] at hs
          | collecting i => simp [hpc] at hs
          | done => simp [hpc] at hs
    | processing task =>
      simp only [hg, Option.some.injEq] at hs hset
      subst hs
      have h1 := hset { g with pc := .sending { task with processed := true } }
      simp only [heldIds_processing, heldIds_sending] at h1
      have h2 := add_right_cancel h1
      refine ⟨htl, hrl, ?_, hpc1, hpr, ?_, ?_, hth, ?_⟩
      · dsimp only
        rw [h2]
        exact hc
      · intro g1 hmem t ht
        rcases List.mem_or_eq_of_mem_set hmem with h3 | h3
        · exact hph g1 h3 t ht
        · subst h3
          simp only [WorkerPC.sending.injEq] at ht
          subst ht
          rfl
      · intro g1 hmem hd
        rcases List.mem_or_eq_of_mem_set hmem with h3 | h3
        · exact hex g1 h3 hd
        · subst h3
          simp at hd
      · dsimp only
        rw [List.length_set]
        exact hp
    | sending task =>
      simp only [hg] at hs hset
      have htp : task.processed = true := hph g hgmem task hg
      have h1 := hset { g with pc := .receiving }
      simp only [heldIds_receiving, heldIds_sending, add_zero] at h1
      by_cases hroom : s.resultChannel.length < cfg.resultCap
      · simp only [hroom, if_true, Option.some.injEq] at hs
        subst hs
        refine ⟨htl, ?_, ?_, ?_, hpr, ?_, ?_, hth, ?_⟩
        · simp only [List.length_append, List.length_singleton]
          omega
        · dsimp only
          rw [hc, ← h1]
          simp only [List.map_append, List.map_cons, List.map_nil, ← Multiset.coe_add,
            Multiset.coe_singleton]
          abel
        · intro t ht
          rcases List.mem_append.mp ht with h3 | h3
          · exact hpc1 t h3
          · simp only [List.mem_singleton] at h3
            subst h3
            exact htp
        · intro g1 hmem t ht
          rcases List.mem_or_eq_of_mem_set hmem with h3 | h3
          · exact hph g1 h3 t ht
          · subst h3
            simp at ht
        · intro g1 hmem hd
          rcases List.mem_or_eq_of_mem_set hmem with h3 | h3
          · exact hex g1 h3 hd
          · subst h3
            simp at hd
        · dsimp only
          rw [List.length_set]
          exact hp
      · simp only [hroom, if_false] at hs
        cases hpc : s.pc with
        | collecting i =>
          simp only [hpc] at hs
          simp only [hpc, AtPc] at hp
          simp only [hpc, sentCount] at hc
          by_cases hcap : cfg.resultCap = 0 ∧ i < cfg.tasks.length
          · simp only [hcap, and_self, if_true, Option.some.injEq] at hs
            subst hs
            refine ⟨htl, hrl, ?_, hpc1, ?_, ?_, ?_, hth, ?_⟩
            · dsimp only
              simp only [sentCount]
              rw [hc, ← h1]
              simp only [List.map_append, List.map_cons, List.map_nil, ← Multiset.coe_add,
                Multiset.coe_singleton]
              abel
            · intro t ht
              rcases List.mem_append.mp ht with h3 | h3
              · exact hpr t h3
              · simp only [List.mem_singleton] at h3
                subst h3
                exact htp
            · intro g1 hmem t ht
              rcases List.mem_or_eq_of_mem_set hmem with h3 | h3
              · exact hph g1 h3 t ht
              · subst h3
                simp at ht
            · intro g1 hmem hd
              rcases List.mem_or_eq_of_mem_set hmem with h3 | h3
              · exact hex g1 h3 hd
              · subst h3
                simp at hd
            · simp only [AtPc, List.length_set, List.length_append, List.length_singleton]
              exact ⟨by omega, hp.2.1, hp.2.2.1, by omega⟩
          · simp [hcap] at hs
        | starting i => simp [hpc] at hs
        | sending k => simp [hpc] at hs
        | done => simp [hpc] at hs
    | done => simp [hg] at hs

theorem pool_inv_step {cfg : Config} {s s1 : State} {g : PoolGid} (h : PoolInv cfg s)
    (hs : poolStep cfg s g = some s1) : PoolInv cfg s1 := by
  cases g with
  | main => exact inv_mainStep h hs
  | worker n => exact inv_processTasks h hs

theorem pool_inv_run {cfg : Config} :
    ∀ (sched : List PoolGid) {s s1 : State}, PoolInv cfg s → poolRun cfg s sched = some s1 → PoolInv cfg s1
  | [], s, s1, h, hr => by
    simp only [poolRun, Option.some.injEq] at hr
    exact hr ▸ h
  | g :: rest, s, s1, h, hr => by
    simp only [poolRun] at hr
    cases hs : poolStep cfg s g with
    | none => simp [hs] at hr
    | some s2 =>
      simp only [hs, Option.bind_some] at hr
      exact pool_inv_run rest (pool_inv_step h hs) hr

/-! # The pool: the states in which no goroutine can move -/

theorem card_held_pos :
    ∀ (l : List WorkerProc) (g : WorkerProc) (t : Task), g ∈ l → g.pc = .sending t →
      0 < Multiset.card (l.map (fun g => heldIds g.pc)).sum
  | [], g, t, hmem, _ => by simp at hmem
  | a :: l, g, t, hmem, hg => by
    simp only [List.map_cons, List.sum_cons, map_add]
    rcases List.mem_cons.mp hmem with h1 | h1
    · subst h1
      simp [hg, heldIds_sending]
    · have := card_held_pos l g t h1 hg
      omega

theorem stuck_cases {cfg : Config} {s : State} (h : PoolInv cfg s) (hN : 1 ≤ cfg.numWorkers)
    (hst : Stuck cfg s) : Finished s ∨ ProducerDeadlock cfg s := by
  have hcount := pool_inv_counts h
  obtain ⟨htl, hrl, hc, hpc1, hpr, hph, hex, hth, hp⟩ := h
  have hmain : mainStep cfg s = none := hst .main
  have hworker : ∀ g ∈ s.workers, ∃ n, s.workers[n]? = some g ∧ processTasks cfg s n = none := by
    intro g hmem
    obtain ⟨n, hn⟩ := List.getElem?_of_mem hmem
    exact ⟨n, hn, hst (.worker n)⟩
  unfold mainStep at hmain
  cases hpc : s.pc with
  | starting i =>
    simp only [hpc] at hmain
    by_cases hi : i ≤ cfg.numWorkers <;> simp [hi] at hmain
  | sending k =>
    simp only [hpc] at hmain
    simp only [hpc, AtPc] at hp
    simp only [hpc, sentCount] at hcount
    cases hk : cfg.tasks[k]? with
    | none => simp [hk] at hmain
    | some task =>
      have hlt : k < cfg.tasks.length := (List.getElem?_eq_some_iff.mp hk).1
      simp only [hk, ite_eq_right_iff, imp_false, reduceCtorEq] at hmain
      have hfull : s.taskChannel.length = cfg.taskCap := by omega
      have hall : ∀ g ∈ s.workers,
          (∃ t, g.pc = .sending t) ∧ ¬ s.resultChannel.length < cfg.resultCap := by
        intro g hmem
        obtain ⟨n, hn, hnone⟩ := hworker g hmem
        unfold processTasks at hnone
        simp only [hn] at hnone
        cases hg : g.pc with
        | receiving =>
          simp only [hg] at hnone
          cases htc : s.taskChannel with
          | cons t rest => simp [htc] at hnone
          | nil =>
            have hcap : cfg.taskCap = 0 := by
              rw [← hfull, htc]
              rfl
            simp [htc, hp.2.2.1, hpc, hk, hcap] at hnone
        | processing t => simp [hg] at hnone
        | sending t =>
          refine ⟨⟨t, rfl⟩, ?_⟩
          intro hroom
          simp [hg, hroom] at hnone
        | done =>
          have := (hex g hmem hg).1
          simp [hp.2.2.1] at this
      have hcard := card_held_sending s.workers (fun g hg => (hall g hg).1)
      have hne : s.workers ≠ [] := by
        intro hnil
        have := hp.2.1
        rw [hnil] at this
        simp at this
        omega
      obtain ⟨g0, hg0⟩ := List.exists_mem_of_ne_nil s.workers hne
      have hrfull := (hall g0 hg0).2
      right
      have hkeq : k = cfg.taskCap + cfg.resultCap + cfg.numWorkers := by
        have := hp.2.1
        have := hp.2.2.2
        simp only [hp.2.2.2, List.length_nil] at hcount
        omega
      refine ⟨by rw [← hkeq]; exact hpc, by omega, hfull, by omega, hp.2.1,
        fun g hg => (hall g hg).1, hp.2.2.2⟩
  | collecting i =>
    simp only [hpc] at hmain
    simp only [hpc, AtPc] at hp
    simp only [hpc, sentCount] at hcount
    by_cases hi : i < cfg.tasks.length
    · simp only [hi, if_true] at hmain
      cases hrc : s.resultChannel with
      | cons r rest => simp [hrc] at hmain
      | nil =>
        exfalso
        have hall : ∀ g ∈ s.workers, g.pc = .done := by
          intro g hmem
          obtain ⟨n, hn, hnone⟩ := hworker g hmem
          unfold processTasks at hnone
          simp only [hn] at hnone
          cases hg : g.pc with
          | receiving =>
            simp only [hg] at hnone
            cases htc : s.taskChannel with
            | cons t rest => simp [htc] at hnone
            | nil => simp [htc, hp.2.2.1] at hnone
          | processing t => simp [hg] at hnone
          | sending t =>
            simp only [hg, hrc, List.length_nil, hpc] at hnone
            by_cases hcap : 0 < cfg.resultCap
            · simp [hcap] at hnone
            · have hz : cfg.resultCap = 0 := by omega
              simp [hz, hi] at hnone
          | done => rfl
        have hne : s.workers ≠ [] := by
          intro hnil
          have := hp.2.1
          rw [hnil] at this
          simp at this
          omega
        obtain ⟨g0, hg0⟩ := List.exists_mem_of_ne_nil s.workers hne
        have htc := (hex g0 hg0 (hall g0 hg0)).2
        have hz := held_done s.workers hall
        simp only [htc, hz, hrc, List.length_nil, Multiset.card_zero] at hcount
        omega
    · simp [hi] at hmain
  | done =>
    simp only [hpc, AtPc] at hp
    simp only [hpc, sentCount] at hcount
    left
    refine ⟨hpc, ?_⟩
    intro g hmem
    obtain ⟨n, hn, hnone⟩ := hworker g hmem
    unfold processTasks at hnone
    simp only [hn] at hnone
    cases hg : g.pc with
    | receiving =>
      simp only [hg] at hnone
      cases htc : s.taskChannel with
      | cons t rest => simp [htc] at hnone
      | nil => simp [htc, hp.2.1] at hnone
    | processing t => simp [hg] at hnone
    | sending t =>
      have := card_held_pos s.workers g t hmem hg
      omega
    | done => rfl

/-! # Claims about the worker pool -/

theorem mem_workers_bound {s : State} {n : Nat} {g : WorkerProc}
    (hn : s.workers[n]? = some g) : n < s.workers.length :=
  (List.getElem?_eq_some_iff.mp hn).1

theorem not_stuck_iff {cfg : Config} {s : State} :
    ¬ Stuck cfg s ↔ ∃ g, (poolStep cfg s g).isSome = true := by
  unfold Stuck
  constructor
  · intro h
    simp only [not_forall] at h
    obtain ⟨g, hg⟩ := h
    exact ⟨g, Option.isSome_iff_ne_none.mpr hg⟩
  · rintro ⟨g, hg⟩ h
    rw [h g] at hg
    simp at hg

theorem finished_results {cfg : Config} {s : State} (h : PoolInv cfg s) (hd : s.pc = .done) :
    s.results.length = cfg.tasks.length ∧
    (↑(s.results.map Task.id) : Multiset Int) = ↑(cfg.tasks.map Task.id) := by
  have hcount := pool_inv_counts h
  obtain ⟨htl, hrl, hc, hpc1, hpr, hph, hex, hth, hp⟩ := h
  simp only [hd, AtPc] at hp
  simp only [hd, sentCount] at hc hcount
  have hz1 : (s.workers.map (fun g => heldIds g.pc)).sum = 0 := by
    apply Multiset.card_eq_zero.mp
    omega
  have hz2 : s.taskChannel = [] := by
    apply List.eq_nil_of_length_eq_zero
    omega
  have hz3 : s.resultChannel = [] := by
    apply List.eq_nil_of_length_eq_zero
    omega
  refine ⟨hp.2.2, ?_⟩
  rw [List.take_length, hz1, hz2, hz3] at hc
  simp only [List.map_nil, Multiset.coe_nil, add_zero, zero_add] at hc
  exact hc.symm

/-- C6: for every pool (any capacities, any number of workers, any tasks) and every
schedule: once `main` has finished collecting it has received exactly K results,
the multiset of their ids is the multiset of the ids submitted, and every one is
marked processed; and a worker that holds a task it has received moves on to the
send of that task with the same id and processed set to true. -/
theorem processTasks_forwards_every_task (cfg : Config) (sched : List PoolGid) (s : State)
    (h : poolRun cfg (main cfg) sched = some s) :
    (s.pc = MainPC.done →
      s.results.length = cfg.tasks.length ∧
      (↑(s.results.map Task.id) : Multiset Int) = ↑(cfg.tasks.map Task.id) ∧
      ∀ t ∈ s.results, t.processed = true) ∧
    (∀ n g task, s.workers[n]? = some g → g.pc = WorkerPC.processing task →
      ∃ s1, poolStep cfg s (PoolGid.worker n) = some s1 ∧
        s1.workers[n]? =
          some { w := g.w, pc := WorkerPC.sending { id := task.id, processed := true } }) := by
  have hinv := pool_inv_run sched (inv_main cfg) h
  constructor
  · intro hd
    have h1 := finished_results hinv hd
    exact ⟨h1.1, h1.2, hinv.processed_res⟩
  · intro n g task hn hg
    have hlt := mem_workers_bound hn
    simp only [poolStep, processTasks, hn, hg]
    exact ⟨_, rfl, by simp [hlt]⟩

/-- C6 (witness): the tasks 1, 2, 3 on a pool of three workers: the run of the
scenario ends with three results, with ids 2, 3, 1 in that order, all processed. -/
theorem processTasks_forwards_every_task_witness :
    ∃ s, poolRun poolScenarioConfig (main poolScenarioConfig) poolScenarioSchedule = some s ∧
      s.pc = MainPC.done ∧
      s.results = [⟨2, true⟩, ⟨3, true⟩, ⟨1, true⟩] ∧
      (↑(s.results.map Task.id) : Multiset Int) = ↑(poolScenarioConfig.tasks.map Task.id) :=
  ⟨_, rfl, rfl, rfl,
    ((processTasks_forwards_every_task poolScenarioConfig poolScenarioSchedule _ rfl).1 rfl).2.1⟩

theorem programRun_poolRun {cfg : Config} :
    ∀ (sched : List PoolGid) {s s1 : State}, programRun cfg s sched = some s1 →
      poolRun cfg s sched = some s1
  | [], s, s1, h => by
    simpa [programRun, poolRun] using h
  | g :: rest, s, s1, h => by
    simp only [programRun] at h
    cases hs : programStep cfg s g with
    | none => simp [hs] at h
    | some s2 =>
      simp only [hs, Option.bind_some] at h
      have hp : poolStep cfg s g = some s2 := by
        unfold programStep at hs
        cases hpc : s.pc <;> simp only [hpc] at hs
        · exact hs
        · exact hs
        · exact hs
        · simp at hs
      simp only [poolRun, hp, Option.bind_some]
      exact programRun_poolRun rest h

theorem programStep_of_running {cfg : Config} {s : State} (hpc : s.pc ≠ .done)
    (g : PoolGid) : programStep cfg s g = poolStep cfg s g := by
  unfold programStep
  cases h : s.pc with
  | done => exact absurd h hpc
  | starting i => rfl
  | sending k => rfl
  | collecting i => rfl

theorem card_heldIds_le_sum :
    ∀ (l : List WorkerProc) (g : WorkerProc), g ∈ l →
      Multiset.card (heldIds g.pc) ≤ Multiset.card (l.map (fun g => heldIds g.pc)).sum
  | [], g, hmem => by simp at hmem
  | a :: l, g, hmem => by
    simp only [List.map_cons, List.sum_cons, map_add]
    rcases List.mem_cons.mp hmem with h1 | h1
    · subst h1
      omega
    · have := card_heldIds_le_sum l g h1
      omega

theorem done_workers_idle {cfg : Config} {s : State} (h : PoolInv cfg s)
    (hd : s.pc = .done) :
    s.taskChannel = [] ∧ s.resultChannel = [] ∧
    ∀ g ∈ s.workers, g.pc = .receiving ∨ g.pc = .done := by
  have hcount := pool_inv_counts h
  have hp := h.at_pc
  simp only [hd, AtPc] at hp
  simp only [hd, sentCount] at hcount
  refine ⟨List.eq_nil_of_length_eq_zero (by omega),
    List.eq_nil_of_length_eq_zero (by omega), ?_⟩
  intro g hmem
  have hle := card_heldIds_le_sum s.workers g hmem
  cases hg : g.pc with
  | receiving => exact Or.inl rfl
  | done => exact Or.inr rfl
  | processing t =>
    simp only [hg, heldIds_processing, Multiset.card_singleton] at hle
    omega
  | sending t =>
    simp only [hg, heldIds_sending, Multiset.card_singleton] at hle
    omega

/-- C7 (counterexample): the claim fails in two ways. With the capacities and the
three workers of `main` and fourteen tasks, a schedule leads to a state in which
`main` waits to send the fourteenth task and no goroutine can move. And in the
program as written (five tasks), a schedule lets `main` receive its five results and
return while all three workers stand at their receive: the process ends there, so no
worker has observed the closed channel and none ever returns. -/
theorem pool_deadlock_and_early_return :
    (∃ s, programRun overloadConfig (main overloadConfig) overloadSchedule = some s ∧
      s.pc = MainPC.sending 13 ∧ s.closed = false ∧ s.results = [] ∧
      s.taskChannel.length = 5 ∧ s.resultChannel.length = 5 ∧
      ∀ g, programStep overloadConfig s g = none) ∧
    (∃ s, programRun mainConfig (main mainConfig) earlyReturnSchedule = some s ∧
      s.pc = MainPC.done ∧ s.closed = true ∧ s.results.length = 5 ∧
      s.workers.map WorkerProc.pc
        = [WorkerPC.receiving, WorkerPC.receiving, WorkerPC.receiving] ∧
      ∀ g, programStep mainConfig s g = none) := by
  constructor
  · refine ⟨_, rfl, rfl, rfl, rfl, rfl, rfl, ?_⟩
    intro g
    cases g with
    | main => rfl
    | worker n =>
      match n with
      | 0 => rfl
      | 1 => rfl
      | 2 => rfl
      | n + 3 => rfl
  · refine ⟨_, rfl, rfl, rfl, rfl, rfl, ?_⟩
    intro g
    rfl

/-- C7 (amended): with the capacities of `main` (5 and 5), N ≥ 1 workers and at most
N + 10 tasks, in every run of the process, which ends when `main` returns: a run has
at most 2 N + 5 K + 3 steps; as long as `main` has not returned some goroutine can
move, so a state in which nothing moves is the end of the process; when `main` returns
it has received all K results, `taskChannel` is closed, both channels are empty and
every worker either has returned or stands at its receive, holding no task; and
while the process runs, a worker at its receive on the closed `taskChannel` is never
blocked. -/
theorem pool_terminates_within_capacity (numWorkers : Nat) (tasks : List Task)
    (hN : 1 ≤ numWorkers) (hK : tasks.length ≤ numWorkers + 10)
    (sched : List PoolGid) (s : State)
    (h : programRun (poolConfig numWorkers tasks) (main (poolConfig numWorkers tasks)) sched
      = some s) :
    sched.length ≤ 2 * numWorkers + 5 * tasks.length + 3 ∧
    (s.pc ≠ MainPC.done →
      ∃ g, (programStep (poolConfig numWorkers tasks) s g).isSome = true) ∧
    ((∀ g, programStep (poolConfig numWorkers tasks) s g = none) → s.pc = MainPC.done) ∧
    (s.pc = MainPC.done →
      s.results.length = tasks.length ∧ s.closed = true ∧
      s.taskChannel = [] ∧ s.resultChannel = [] ∧
      ∀ g ∈ s.workers, g.pc = WorkerPC.receiving ∨ g.pc = WorkerPC.done) ∧
    (∀ n g, s.workers[n]? = some g → g.pc = WorkerPC.receiving → s.closed = true →
      s.pc ≠ MainPC.done →
      (programStep (poolConfig numWorkers tasks) s (PoolGid.worker n)).isSome = true) := by
  have hpool := programRun_poolRun sched h
  have hinv := pool_inv_run sched (inv_main _) hpool
  have hpot := pool_potential_run sched hpool
  have hprogress : s.pc ≠ MainPC.done →
      ∃ g, (programStep (poolConfig numWorkers tasks) s g).isSome = true := by
    intro hpc
    have hns : ¬ Stuck (poolConfig numWorkers tasks) s := by
      intro hst
      rcases stuck_cases hinv hN hst with h1 | h1
      · exact hpc h1.1
      · have := h1.2.1
        simp only [poolConfig] at this
        omega
    obtain ⟨g, hg⟩ := not_stuck_iff.mp hns
    exact ⟨g, by rw [programStep_of_running hpc]; exact hg⟩
  refine ⟨?_, hprogress, ?_, ?_, ?_⟩
  · simp only [poolPotential, main, poolConfig, List.map_nil, List.sum_nil, List.length_nil]
      at hpot
    omega
  · intro hnone
    by_contra hpc
    obtain ⟨g, hg⟩ := hprogress hpc
    rw [hnone g] at hg
    simp at hg
  · intro hd
    have hidle := done_workers_idle hinv hd
    have hp := hinv.at_pc
    simp only [hd, AtPc] at hp
    exact ⟨(finished_results hinv hd).1, hp.2.1, hidle.1, hidle.2.1, hidle.2.2⟩
  · intro n g hn hg hcl hpc
    rw [programStep_of_running hpc]
    simp only [poolStep, processTasks, hn, hg]
    cases htc : s.taskChannel with
    | cons t rest => simp
    | nil => simp [hcl]

/-- C7 (witness): the program as written, three workers and the five tasks of `main`,
on a complete run: `main` returns with five results and, on this schedule, every
worker has returned before. -/
theorem pool_terminates_within_capacity_witness :
    mainConfig = poolConfig 3 (numbered 5) ∧ 1 ≤ 3 ∧ (numbered 5).length ≤ 3 + 10 ∧
    ∃ s, programRun (poolConfig 3 (numbered 5)) (main (poolConfig 3 (numbered 5)))
        workersReturnSchedule = some s ∧
      s.pc = MainPC.done ∧
      s.workers.map WorkerProc.pc = [WorkerPC.done, WorkerPC.done, WorkerPC.done] ∧
      s.results.map Task.id = [1, 2, 3, 4, 5] ∧
      s.results.length = (numbered 5).length ∧ s.closed = true ∧
      s.taskChannel = [] ∧ s.resultChannel = [] ∧
      ∀ g ∈ s.workers, g.pc = WorkerPC.receiving ∨ g.pc = WorkerPC.done :=
  ⟨by decide, by decide, by decide, _, rfl, rfl, rfl, rfl,
    (pool_terminates_within_capacity 3 (numbered 5) (by decide) (by decide)
      workersReturnSchedule _ rfl).2.2.2.1 rfl⟩

/-- C10: for N ≥ 1 workers, capacities T and R and K tasks: `main` can reach a state
from which it stays forever at one send exactly when T + R + N < K; every run has
at most 2 N + 5 K + 3 steps; when K ≤ T + R + N, in every reachable state some
goroutine can move unless the run is finished, a finished run has collected all K
results, and every reachable state can be run on to such an end; when T + R + N < K,
no result is ever collected, a state in which no goroutine can move has `main`
waiting to send task number T + R + N + 1 with `taskChannel` full and every worker
waiting to send to the full `resultChannel`, and every reachable state can be run on
to such a state. -/
theorem producer_blocks_iff_over_capacity (cfg : Config) (hN : 1 ≤ cfg.numWorkers) :
    ((∃ sched s k, poolRun cfg (main cfg) sched = some s ∧ BlockedForever cfg s k) ↔
      cfg.taskCap + cfg.resultCap + cfg.numWorkers < cfg.tasks.length) ∧
    (∀ sched s, poolRun cfg (main cfg) sched = some s →
      sched.length ≤ 2 * cfg.numWorkers + 5 * cfg.tasks.length + 3) ∧
    (cfg.tasks.length ≤ cfg.taskCap + cfg.resultCap + cfg.numWorkers →
      ∀ sched s, poolRun cfg (main cfg) sched = some s →
        (¬ Finished s → ∃ g, (poolStep cfg s g).isSome = true) ∧
        (Stuck cfg s → Finished s) ∧
        (Finished s → s.results.length = cfg.tasks.length) ∧
        ∃ sched1 s1, poolRun cfg s sched1 = some s1 ∧ Finished s1 ∧
          s1.results.length = cfg.tasks.length) ∧
    (cfg.taskCap + cfg.resultCap + cfg.numWorkers < cfg.tasks.length →
      ∀ sched s, poolRun cfg (main cfg) sched = some s →
        s.results = [] ∧ ¬ Finished s ∧
        (Stuck cfg s → ProducerDeadlock cfg s) ∧
        ∃ sched1 s1, poolRun cfg s sched1 = some s1 ∧ ProducerDeadlock cfg s1 ∧ Stuck cfg s1) := by
  have hreach : ∀ sched s, poolRun cfg (main cfg) sched = some s → PoolInv cfg s :=
    fun sched s h => pool_inv_run sched (inv_main cfg) h
  have hsmall : cfg.tasks.length ≤ cfg.taskCap + cfg.resultCap + cfg.numWorkers →
      ∀ s, PoolInv cfg s → Stuck cfg s → Finished s := by
    intro hle s hinv hst
    rcases stuck_cases hinv hN hst with h1 | h1
    · exact h1
    · have := h1.2.1
      omega
  have hlarge : cfg.taskCap + cfg.resultCap + cfg.numWorkers < cfg.tasks.length →
      ∀ s, PoolInv cfg s → s.closed = false ∧ s.results = [] ∧ ¬ Finished s := by
    intro hlt s hinv
    have hcl : s.closed = false := by
      cases hc : s.closed with
      | false => rfl
      | true =>
        have := hinv.threshold hc
        omega
    have hp := hinv.at_pc
    cases hpc : s.pc with
    | starting i =>
      simp only [hpc, AtPc] at hp
      exact ⟨hcl, hp.2.2.2.2, fun hf => by have h5 := hf.1; rw [hpc] at h5; simp at h5⟩
    | sending k =>
      simp only [hpc, AtPc] at hp
      exact ⟨hcl, hp.2.2.2, fun hf => by have h5 := hf.1; rw [hpc] at h5; simp at h5⟩
    | collecting i =>
      simp only [hpc, AtPc] at hp
      simp [hcl] at hp
    | done =>
      simp only [hpc, AtPc] at hp
      simp [hcl] at hp
  have hlargeStuck : cfg.taskCap + cfg.resultCap + cfg.numWorkers < cfg.tasks.length →
      ∀ s, PoolInv cfg s → Stuck cfg s → ProducerDeadlock cfg s := by
    intro hlt s hinv hst
    rcases stuck_cases hinv hN hst with h1 | h1
    · exact absurd h1 (hlarge hlt s hinv).2.2
    · exact h1
  refine ⟨⟨?_, ?_⟩, ?_, ?_, ?_⟩
  · rintro ⟨sched, s, k, hr, hk, hforever⟩
    by_contra hcon
    have hle : cfg.tasks.length ≤ cfg.taskCap + cfg.resultCap + cfg.numWorkers := by omega
    obtain ⟨sched1, s1, hr1, hst1⟩ := exists_stuck_run cfg (poolPotential cfg s) s (le_refl _)
    have hinv1 := pool_inv_run sched1 (hreach sched s hr) hr1
    have hfin := hsmall hle s1 hinv1 hst1
    have hpc := hforever sched1 s1 hr1
    rw [hfin.1] at hpc
    simp at hpc
  · intro hlt
    obtain ⟨sched1, s1, hr1, hst1⟩ :=
      exists_stuck_run cfg (poolPotential cfg (main cfg)) (main cfg) (le_refl _)
    have hinv1 := hreach sched1 s1 hr1
    have hdead := hlargeStuck hlt s1 hinv1 hst1
    refine ⟨sched1, s1, _, hr1, hdead.2.1, ?_⟩
    intro sched2 s2 hr2
    rw [run_of_stuck hst1 sched2 hr2]
    exact hdead.1
  · intro sched s hr
    have hpot := pool_potential_run sched hr
    simp only [poolPotential, main, List.map_nil, List.sum_nil, List.length_nil] at hpot
    omega
  · intro hle sched s hr
    have hinv := hreach sched s hr
    refine ⟨?_, hsmall hle s hinv, ?_, ?_⟩
    · intro hnf
      exact not_stuck_iff.mp (fun hst => hnf (hsmall hle s hinv hst))
    · intro hf
      exact (finished_results hinv hf.1).1
    · obtain ⟨sched1, s1, hr1, hst1⟩ := exists_stuck_run cfg (poolPotential cfg s) s (le_refl _)
      have hinv1 := pool_inv_run sched1 hinv hr1
      have hf := hsmall hle s1 hinv1 hst1
      exact ⟨sched1, s1, hr1, hf, (finished_results hinv1 hf.1).1⟩
  · intro hlt sched s hr
    have hinv := hreach sched s hr
    have h3 := hlarge hlt s hinv
    refine ⟨h3.2.1, h3.2.2, hlargeStuck hlt s hinv, ?_⟩
    obtain ⟨sched1, s1, hr1, hst1⟩ := exists_stuck_run cfg (poolPotential cfg s) s (le_refl _)
    have hinv1 := pool_inv_run sched1 hinv hr1
    exact ⟨sched1, s1, hr1, hlargeStuck hlt s1 hinv1 hst1, hst1⟩

/-- C10 (witness): the program itself (K = 5, T = R = 5, N = 3) never reaches a state
from which `main` stays at a send forever, and every run of it can be run on to the end
with five results. -/
theorem producer_blocks_iff_over_capacity_witness :
    1 ≤ mainConfig.numWorkers ∧
    (¬ ∃ sched s k, poolRun mainConfig (main mainConfig) sched = some s ∧
      BlockedForever mainConfig s k) ∧
    (∃ sched1 s1, poolRun mainConfig (main mainConfig) sched1 = some s1 ∧ Finished s1 ∧
      s1.results.length = 5) :=
  ⟨by decide,
   fun hb => absurd ((producer_blocks_iff_over_capacity mainConfig (by decide)).1.mp hb)
     (by decide),
   ((producer_blocks_iff_over_capacity mainConfig (by decide)).2.2.1 (by decide) [] _ rfl).2.2.2⟩

end WorkerPool
